import Mathlib

/-!
Verification of the duplicate detection and resolution engine of
`apple-music-duplicate-finder` (files `analyze_library.py` and
`evaluate_duplicates.py`), as a shallow embedding in Lean 4.

Conventions of the embedding:
* Python dicts that are iterated in insertion order are modelled as
  association lists (`List (key × value)`), preserving order.
* `plistlib` track records are modelled as a structure of `Option` fields
  (a missing key is `none`).
* Python floats appearing in the score are modelled as exact rationals `ℚ`
  (the score formula only adds integers scaled by the constants
  `1/100`, `1/1000000`, `5`, `10`).
* The filesystem probed by `os.path.exists` is an explicit parameter
  `fs : String → Bool`.
* Fallible Python code (`int(...)` raising `ValueError`, which propagates
  out of `evaluate_duplicates`) is modelled with `Except String`.
-/

/-- Model of Python `str.lower()` applied to ASCII file extensions:
per-character lowercasing (`Char.toLower` lowers `A`-`Z`). -/
def pyLower (s : String) : String := String.mk (s.toList.map Char.toLower)

/-- Last index at which `c` occurs in `cs`, counting from `i` for the head;
models Python `str.rfind` (with `none` for `-1`). -/
def rfindFrom (c : Char) : List Char → Nat → Option Nat
  | [], _ => none
  | x :: xs, i =>
    match rfindFrom c xs (i + 1) with
    | some j => some j
    | none => if x = c then some i else none

/-- Model of the extension component of `os.path.splitext(p)` (posix rules,
`sep = '/'`, `extsep = '.'`): the suffix from the last dot onwards, provided
that dot lies after the last separator and the basename does not consist
solely of leading dots; `""` otherwise.  Mirrors CPython
`genericpath._splitext`. -/
def splitextExt (p : String) : String :=
  let cs := p.toList
  match rfindFrom '.' cs 0 with
  | none => ""
  | some dotIndex =>
    let filenameIndex : Nat :=
      match rfindFrom '/' cs 0 with
      | none => 0
      | some sepIndex => sepIndex + 1
    -- `dotIndex > sepIndex` together with: some char in
    -- `[filenameIndex, dotIndex)` is not a dot
    if filenameIndex ≤ dotIndex ∧
        ((cs.drop filenameIndex).take (dotIndex - filenameIndex)).any (· ≠ '.') then
      String.mk (cs.drop dotIndex)
    else ""

/-- Lexicographic `≤` on code-point sequences, as Python compares
strings. -/
def charsLe : List Char → List Char → Bool
  | [], _ => true
  | _ :: _, [] => false
  | a :: as, b :: bs => if a = b then charsLe as bs else decide (a < b)

/-- Python string comparison `a <= b` (lexicographic on code points). -/
def pyStrLe (a b : String) : Bool := charsLe a.toList b.toList

/-- Model of Python `sorted` on lists of strings: ascending stable sort.
Since equal keys are equal strings, the stable-sort output is the unique
ascending reordering, so `List.insertionSort` computes it. -/
def pySorted (l : List String) : List String :=
  l.insertionSort (fun a b => pyStrLe a b = true)

/-- Model of Python `int(s)` on the strings this program feeds it
(plist integer fields): optional surrounding whitespace, an optional
sign, then a nonempty run of decimal digits; anything else raises
`ValueError` (modelled as `none`).  Numeric-literal underscore
separators are not modelled. -/
def pyIntDigits : List Char → Option Nat
  | [] => none
  | [c] => if c.isDigit then some (c.toNat - '0'.toNat) else none
  | c :: cs =>
    if c.isDigit then
      (pyIntDigits cs).map (fun n => (c.toNat - '0'.toNat) * 10 ^ cs.length + n)
    else none

def pyInt (s : String) : Option Int :=
  let cs := (s.toList.dropWhile Char.isWhitespace).reverse.dropWhile Char.isWhitespace
    |>.reverse
  match cs with
  | '+' :: rest => (pyIntDigits rest).map Int.ofNat
  | '-' :: rest => (pyIntDigits rest).map (fun n => -(n : Int))
  | rest => (pyIntDigits rest).map Int.ofNat

/-- Does `pre` occur at the head of `cs`? -/
def charsHavePrefix : List Char → List Char → Bool
  | [], _ => true
  | _ :: _, [] => false
  | a :: as, b :: bs => a = b && charsHavePrefix as bs

/-- Python `s.startswith(pre)`. -/
def pyStartsWith (s pre : String) : Bool := charsHavePrefix pre.toList s.toList

/-- Python slicing `s[n:]` (by code points). -/
def pyDropChars (n : Nat) (s : String) : String := String.mk (s.toList.drop n)

/-- One pass of Python `str.replace`: on a match of the (nonempty)
pattern, emit the replacement and skip the rest of the match via the
counter argument; left-to-right, non-overlapping. -/
def replaceAux (pat new : List Char) : Nat → List Char → List Char
  | _ + 1, [] => []
  | n + 1, _ :: cs => replaceAux pat new n cs
  | 0, [] => []
  | 0, c :: cs =>
    if charsHavePrefix pat (c :: cs) && !pat.isEmpty then
      new ++ replaceAux pat new (pat.length - 1) cs
    else c :: replaceAux pat new 0 cs

/-- Python `s.replace(pat, new)` for a nonempty pattern. -/
def pyReplace (s pat new : String) : String :=
  String.mk (replaceAux pat.toList new.toList 0 s.toList)

/-- Structure equality test for `Except` results, so concrete runs of
the embedded pipeline can be checked by `decide`. -/
instance {ε α : Type} [DecidableEq ε] [DecidableEq α] : DecidableEq (Except ε α) :=
  fun x y =>
    match x, y with
    | .ok a, .ok b =>
      if h : a = b then isTrue (h ▸ rfl)
      else isFalse (fun hh => h (Except.ok.inj hh))
    | .ok _, .error _ => isFalse (fun hh => Except.noConfusion hh)
    | .error _, .ok _ => isFalse (fun hh => Except.noConfusion hh)
    | .error e, .error e' =>
      if h : e = e' then isTrue (h ▸ rfl)
      else isFalse (fun hh => h (Except.error.inj hh))

/-! ## Data model of `analyze_library.py` -/

/-- One track record of the `Tracks` mapping of the plist library
(the fields `find_duplicates_by_metadata` / `find_duplicates_by_location`
read; a missing plist key is `none`). -/
structure Track where
  name : Option String := none
  artist : Option String := none
  album : Option String := none
  totalTime : Option Int := none
  location : Option String := none
  playCount : Option Int := none
  dateAdded : Option String := none
deriving DecidableEq, Repr

/-- The metadata equivalence key tuple
`(Name, Artist, Album, Total Time, file_extension)` built at
`analyze_library.py:93-99`. -/
structure MetaKey where
  name : String
  artist : String
  album : String
  totalTime : Int
  fileExtension : String
deriving DecidableEq, Repr

/-- `metadata_key` for one track: defaults `''`/`0` for missing fields, and
the lower-cased `os.path.splitext` extension of the location. -/
def metadataKey (t : Track) : MetaKey :=
  { name := t.name.getD ""
    artist := t.artist.getD ""
    album := t.album.getD ""
    totalTime := t.totalTime.getD 0
    fileExtension := pyLower (splitextExt (t.location.getD "")) }

/-- The per-track record appended to a metadata group
(`analyze_library.py:101-110`). -/
structure MEntry where
  trackId : String
  name : String
  artist : String
  album : String
  location : String
  playCount : Int
  dateAdded : String
  fileExtension : String
deriving DecidableEq, Repr

def mkMEntry (trackId : String) (t : Track) : MEntry :=
  { trackId := trackId
    name := t.name.getD "Unknown"
    artist := t.artist.getD "Unknown"
    album := t.album.getD "Unknown"
    location := t.location.getD ""
    playCount := t.playCount.getD 0
    dateAdded := t.dateAdded.getD ""
    fileExtension := pyLower (splitextExt (t.location.getD "")) }

/-- The per-track record appended to a location group
(`analyze_library.py:136-143`). -/
structure LEntry where
  trackId : String
  name : String
  artist : String
  album : String
  playCount : Int
  dateAdded : String
deriving DecidableEq, Repr

def mkLEntry (trackId : String) (t : Track) : LEntry :=
  { trackId := trackId
    name := t.name.getD "Unknown"
    artist := t.artist.getD "Unknown"
    album := t.album.getD "Unknown"
    playCount := t.playCount.getD 0
    dateAdded := t.dateAdded.getD "" }

/-- `defaultdict(list)` update: append `e` to the list at key `k`,
creating the key at the end on first use (Python dicts preserve key
insertion order). -/
def insertGroup {κ ε : Type} [DecidableEq κ] :
    List (κ × List ε) → κ → ε → List (κ × List ε)
  | [], k, e => [(k, [e])]
  | (k', es) :: rest, k, e =>
    if k' = k then (k', es ++ [e]) :: rest
    else (k', es) :: insertGroup rest k e

/-- The `metadata_groups` defaultdict after the loop of
`find_duplicates_by_metadata` (tracks without `Location` skipped). -/
def metadataGroups (tracks : List (String × Track)) : List (MetaKey × List MEntry) :=
  tracks.foldl
    (fun gs p =>
      match p.2.location with
      | none => gs
      | some _ => insertGroup gs (metadataKey p.2) (mkMEntry p.1 p.2))
    []

/-- The `location_groups` defaultdict after the loop of
`find_duplicates_by_location`. -/
def locationGroups (tracks : List (String × Track)) : List (String × List LEntry) :=
  tracks.foldl
    (fun gs p =>
      match p.2.location with
      | none => gs
      | some loc => insertGroup gs loc (mkLEntry p.1 p.2))
    []

/-- The allowlist JSON object: each partition key may be absent
(`none` models a dict lacking that key). -/
structure Allowlist where
  metadataDuplicates : Option (List (List String)) := none
  locationDuplicates : Option (List (List String)) := none
deriving DecidableEq, Repr

/-- `find_duplicates_by_metadata(tracks, allowlist)`
(`analyze_library.py:78-125`): group, keep groups of size > 1, then drop
each group whose sorted id list is an element of the
`metadata_duplicates` partition.  `none` for the `allowlist` parameter
models Python `None` (and, equivalently for the branch taken, any falsy
or keyless allowlist). -/
def metadataDups (tracks : List (String × Track)) : List (MetaKey × List MEntry) :=
  (metadataGroups tracks).filter (fun g => 1 < g.2.length)

def find_duplicates_by_metadata (tracks : List (String × Track))
    (allowlist : Option Allowlist) : List (MetaKey × List MEntry) :=
  match allowlist with
  | none => metadataDups tracks
  | some al =>
    match al.metadataDuplicates with
    | none => metadataDups tracks
    | some allowed =>
      (metadataDups tracks).filter (fun g => pySorted (g.2.map (·.trackId)) ∉ allowed)

/-- `find_duplicates_by_location(tracks, allowlist)`
(`analyze_library.py:127-158`). -/
def locationDups (tracks : List (String × Track)) : List (String × List LEntry) :=
  (locationGroups tracks).filter (fun g => 1 < g.2.length)

def find_duplicates_by_location (tracks : List (String × Track))
    (allowlist : Option Allowlist) : List (String × List LEntry) :=
  match allowlist with
  | none => locationDups tracks
  | some al =>
    match al.locationDuplicates with
    | none => locationDups tracks
    | some allowed =>
      (locationDups tracks).filter (fun g => pySorted (g.2.map (·.trackId)) ∉ allowed)

/-- State of the allowlist file as seen by `load_allowlist`: absent,
present but not valid JSON, or valid JSON parsing to `a`. -/
inductive AllowlistFile where
  | absent
  | invalidJson
  | valid (a : Allowlist)
deriving DecidableEq, Repr

/-- `load_allowlist(path)` (`analyze_library.py:35-46`): a fresh
`{'metadata_duplicates': [], 'location_duplicates': []}` on a missing or
unparsable file, the parsed value otherwise.  The function is total: no
branch terminates the process. -/
def load_allowlist : AllowlistFile → Allowlist
  | .absent => { metadataDuplicates := some [], locationDuplicates := some [] }
  | .invalidJson => { metadataDuplicates := some [], locationDuplicates := some [] }
  | .valid a => a

/-! ## Data model of `evaluate_duplicates.py` -/

/-- A lightweight track record of a duplicate group as read from the
duplicates JSON (`track['Track ID']`, `Name`, `Artist`, `Location`);
`Track ID` is already a string there (it was a dict key in
`analyze_library.py`). -/
structure GTrack where
  trackId : String
  name : Option String := none
  artist : Option String := none
  location : Option String := none
deriving DecidableEq, Repr

/-- The `Criteria` dict of one evaluation
(`evaluate_duplicates.py:102-134`); a key never assigned is `none`. -/
structure Criteria where
  fileExists : Option Bool := none
  fileSize : Option Int := none
  bitRate : Option Int := none
  sampleRate : Option Int := none
  playCount : Option Int := none
  rating : Option Int := none
  dateAdded : Option String := none
deriving DecidableEq, Repr

inductive Recommendation where
  | KEEP
  | REMOVE
deriving DecidableEq, Repr, BEq

/-- One element of an `evaluated_group`
(`evaluate_duplicates.py:102-108,150,170-172`).  `score` starts at `0`
(mirroring `track['Score'] = 0`) and `recommendation` at `none` (the
`Recommendation` key is only assigned in the marking loop). -/
structure Ev where
  trackId : String
  name : String
  artist : String
  location : String
  criteria : Criteria
  score : ℚ := 0
  recommendation : Option Recommendation := none
deriving DecidableEq, Repr

/-- The `File Exists` part of criteria construction
(`evaluate_duplicates.py:110-115`): only a `file://` location is decoded
(`location[7:]`, `%20` → space) and probed; other schemes leave the key
unset. -/
def initCriteria (fs : String → Bool) (location : String) : Criteria :=
  if pyStartsWith location "file://" then
    { fileExists := some (fs (pyReplace (pyDropChars 7 location) "%20" " ")) }
  else {}

/-- One iteration of the attribute loop
(`evaluate_duplicates.py:118-134`): later occurrences of a key overwrite
earlier ones; a numeric value that `int()` rejects raises `ValueError`. -/
def applyAttr (c : Criteria) (kv : String × String) : Except String Criteria :=
  let err := fun (v : String) =>
    Except.error ("invalid literal for int() with base 10: " ++ v)
  match kv.1 with
  | "Size" =>
    match pyInt kv.2 with
    | some n => .ok { c with fileSize := some n }
    | none => err kv.2
  | "Bit Rate" =>
    match pyInt kv.2 with
    | some n => .ok { c with bitRate := some n }
    | none => err kv.2
  | "Sample Rate" =>
    match pyInt kv.2 with
    | some n => .ok { c with sampleRate := some n }
    | none => err kv.2
  | "Play Count" =>
    match pyInt kv.2 with
    | some n => .ok { c with playCount := some n }
    | none => err kv.2
  | "Rating" =>
    match pyInt kv.2 with
    | some n => .ok { c with rating := some n }
    | none => err kv.2
  | "Date Added" => .ok { c with dateAdded := some kv.2 }
  | _ => .ok c

/-- Builds the full criteria dict of one track from its location and the
`(key, text)` pairs of its library-XML `<dict>` element. -/
def buildCriteria (fs : String → Bool) (location : String)
    (attrs : List (String × String)) : Except String Criteria :=
  attrs.foldlM applyAttr (initCriteria fs location)

/-- Evaluates one track of a group against the richer attribute source
`src` (the `tracks_dict` built from the library XML, `Track ID` →
attribute pairs); a track id absent from `src` is skipped
(`evaluate_duplicates.py:97-100`). -/
def evalTrack (fs : String → Bool) (src : String → Option (List (String × String)))
    (t : GTrack) : Except String (Option Ev) :=
  match src t.trackId with
  | none => .ok none
  | some attrs => do
    let c ← buildCriteria fs (t.location.getD "") attrs
    .ok (some
      { trackId := t.trackId
        name := t.name.getD "Unknown"
        artist := t.artist.getD "Unknown"
        location := t.location.getD ""
        criteria := c })

/-- The `evaluated_group` list before scoring: evaluations of the
resolvable tracks, in group order. -/
def collectEvals (fs : String → Bool) (src : String → Option (List (String × String))) :
    List GTrack → Except String (List Ev)
  | [] => .ok []
  | t :: ts => do
    let o ← evalTrack fs src t
    let rest ← collectEvals fs src ts
    match o with
    | none => .ok rest
    | some e => .ok (e :: rest)

/-- The scoring loop body (`evaluate_duplicates.py:149-162`). -/
def scoreOf (c : Criteria) : ℚ :=
  (if c.fileExists.getD false then 1000 else 0)
    + ((c.bitRate.getD 0 : Int) : ℚ)
    + ((c.sampleRate.getD 0 : Int) : ℚ) / 100
    + ((c.fileSize.getD 0 : Int) : ℚ) / 1000000
    + ((c.playCount.getD 0 : Int) : ℚ) * 5
    + ((c.rating.getD 0 : Int) : ℚ) * 10

def addScores (l : List Ev) : List Ev :=
  l.map (fun e => { e with score := scoreOf e.criteria })

/-- The scored `evaluated_group` of one duplicate group. -/
def scoredOf (fs : String → Bool) (src : String → Option (List (String × String)))
    (g : List GTrack) : Except String (List Ev) :=
  (collectEvals fs src g).map addScores

/-- Stable insert for a descending sort keyed by `f`: `x` is placed
before the first element whose key is `≤ f x`, i.e. after every earlier
element with a strictly greater or equal key already ahead of it. -/
def insDescBy {α : Type} (f : α → ℚ) (x : α) : List α → List α
  | [] => [x]
  | y :: ys => if f y ≤ f x then x :: y :: ys else y :: insDescBy f x ys

/-- Stable descending sort keyed by `f`.  Python's
`list.sort(key=..., reverse=True)` is a stable sort that keeps
equal-key elements in their original order; the stable descending
reordering of a list is unique, so this insertion sort computes the
same list (`evaluate_duplicates.py:165`). -/
def sortDescBy {α : Type} (f : α → ℚ) : List α → List α
  | [] => []
  | a :: t => insDescBy f a (sortDescBy f t)

/-- The recommendation loop (`evaluate_duplicates.py:168-172`): index 0
of the sorted list gets `KEEP`, all others `REMOVE`. -/
def markRecs : List Ev → List Ev
  | [] => []
  | x :: xs =>
    { x with recommendation := some .KEEP }
      :: xs.map (fun y => { y with recommendation := some .REMOVE })

/-- Evaluation of one duplicate group (`evaluate_duplicates.py:86-174`):
build and score the evaluations, and unless the group resolved to no
tracks, sort descending by score and mark recommendations. -/
def evaluateGroup (fs : String → Bool) (src : String → Option (List (String × String)))
    (g : List GTrack) : Except String (List Ev) := do
  let scored ← scoredOf fs src g
  if scored = [] then pure [] else pure (markRecs (sortDescBy Ev.score scored))

/-- The `evaluated_duplicates` mapping: every group, empty or not, is
stored under its enumeration index (`evaluate_duplicates.py:174`);
`save_evaluation` serializes this mapping verbatim
(`evaluate_duplicates.py:178-182`). -/
def evalGroupsFrom (fs : String → Bool) (src : String → Option (List (String × String))) :
    Nat → List (List GTrack) → Except String (List (Nat × List Ev))
  | _, [] => .ok []
  | n, g :: gs => do
    let e ← evaluateGroup fs src g
    let rest ← evalGroupsFrom fs src (n + 1) gs
    .ok ((n, e) :: rest)

def evaluate_duplicates (fs : String → Bool)
    (src : String → Option (List (String × String)))
    (gs : List (List GTrack)) : Except String (List (Nat × List Ev)) :=
  evalGroupsFrom fs src 0 gs

/-- Which groups `generate_html_report` renders: it skips empty
evaluation lists (`evaluate_duplicates.py:263-265`). -/
def htmlReportGroups (m : List (Nat × List Ev)) : List (Nat × List Ev) :=
  m.filter (fun p => ¬p.2.isEmpty)

inductive DupType where
  | metadata
  | location
deriving DecidableEq, Repr

/-- The pure core of `add_to_allowlist`
(`evaluate_duplicates.py:337-351`): sort the new ids; if some existing
entry is set-equal (compared after sorting both), report "already
present" and change nothing; otherwise append the sorted ids. -/
def addIds (entries : List (List String)) (ids : List String) : List (List String) :=
  if entries.any (fun e => pySorted e = pySorted ids) then entries
  else entries ++ [pySorted ids]

/-- `add_to_allowlist(track_ids, ..., duplicate_type)` on an in-memory
allowlist (the file round-trip is I/O glue): a missing partition key is
first created as `[]` (`evaluate_duplicates.py:333-335`). -/
def add_to_allowlist (al : Allowlist) (dupType : DupType) (ids : List String) :
    Allowlist :=
  match dupType with
  | .metadata =>
    { al with metadataDuplicates := some (addIds (al.metadataDuplicates.getD []) ids) }
  | .location =>
    { al with locationDuplicates := some (addIds (al.locationDuplicates.getD []) ids) }

/-! ## Claim-side definitions -/

/-- The scoring formula as the specification states it (C1): a
1000-point bonus exactly when the location is a `file://` URI whose
`%20`-decoded path exists, plus the weighted criteria, each missing
criterion contributing 0. -/
def claimScoreFormula (fs : String → Bool) (location : String) (c : Criteria) : ℚ :=
  (if pyStartsWith location "file://" && fs (pyReplace (pyDropChars 7 location) "%20" " ")
    then 1000 else 0)
    + ((c.bitRate.getD 0 : Int) : ℚ)
    + ((c.sampleRate.getD 0 : Int) : ℚ) / 100
    + ((c.fileSize.getD 0 : Int) : ℚ) / 1000000
    + ((c.playCount.getD 0 : Int) : ℚ) * 5
    + ((c.rating.getD 0 : Int) : ℚ) * 10

/-- `x` is the first maximum of `l` under key `f`: some decomposition
`l = l₁ ++ x :: l₂` with everything before `x` strictly smaller and
everything in `l` at most `f x`.  This is the element a stable
descending sort puts first. -/
def IsFirstMaxBy {α : Type} (f : α → ℚ) (x : α) (l : List α) : Prop :=
  ∃ l₁ l₂, l = l₁ ++ x :: l₂ ∧ (∀ e ∈ l₁, f e < f x) ∧ ∀ e ∈ l, f e ≤ f x

/-- Pairs each element with its position, starting at `n`: the encounter
order of group members, used to express ranks and tie-breaking. -/
def idxList {α : Type} : Nat → List α → List (Nat × α)
  | _, [] => []
  | n, x :: xs => (n, x) :: idxList (n + 1) xs

/-- `p` is ranked strictly above `q` in a stable descending sort by key
`f`: a strictly greater key, or an equal key and an earlier original
position. -/
def rankedAbove {α : Type} (f : α → ℚ) (p q : Nat × α) : Bool :=
  decide (f q.2 < f p.2) || (decide (f p.2 = f q.2) && decide (p.1 < q.1))

/-- Position of the first occurrence of `x` in a list: the rank of a
track in the sorted evaluation output. -/
def rankIn {α : Type} [DecidableEq α] (x : α) : List α → Nat
  | [] => 0
  | y :: ys => if y = x then 0 else rankIn x ys + 1

/-- `c'` is `c` with exactly one positive-weighted criterion increased
(file existence turned on, or one of bit rate, sample rate, file size,
play count, rating strictly increased, a missing value counting as its
default) and every other scoring criterion unchanged (C9). -/
def critIncrease (c c' : Criteria) : Bool :=
  decide (c.fileExists.getD false = false ∧ c'.fileExists.getD false = true
    ∧ c.fileSize = c'.fileSize ∧ c.bitRate = c'.bitRate
    ∧ c.sampleRate = c'.sampleRate ∧ c.playCount = c'.playCount
    ∧ c.rating = c'.rating)
  || decide (c.bitRate.getD 0 < c'.bitRate.getD 0
    ∧ c.fileExists = c'.fileExists ∧ c.fileSize = c'.fileSize
    ∧ c.sampleRate = c'.sampleRate ∧ c.playCount = c'.playCount
    ∧ c.rating = c'.rating)
  || decide (c.sampleRate.getD 0 < c'.sampleRate.getD 0
    ∧ c.fileExists = c'.fileExists ∧ c.fileSize = c'.fileSize
    ∧ c.bitRate = c'.bitRate ∧ c.playCount = c'.playCount
    ∧ c.rating = c'.rating)
  || decide (c.fileSize.getD 0 < c'.fileSize.getD 0
    ∧ c.fileExists = c'.fileExists ∧ c.bitRate = c'.bitRate
    ∧ c.sampleRate = c'.sampleRate ∧ c.playCount = c'.playCount
    ∧ c.rating = c'.rating)
  || decide (c.playCount.getD 0 < c'.playCount.getD 0
    ∧ c.fileExists = c'.fileExists ∧ c.fileSize = c'.fileSize
    ∧ c.bitRate = c'.bitRate ∧ c.sampleRate = c'.sampleRate
    ∧ c.rating = c'.rating)
  || decide (c.rating.getD 0 < c'.rating.getD 0
    ∧ c.fileExists = c'.fileExists ∧ c.fileSize = c'.fileSize
    ∧ c.bitRate = c'.bitRate ∧ c.sampleRate = c'.sampleRate
    ∧ c.playCount = c'.playCount)

/-! ## Lemmas about the stable descending sort -/

theorem insDescBy_perm {α : Type} (f : α → ℚ) (x : α) (l : List α) :
    (insDescBy f x l).Perm (x :: l) := by
  induction l with
  | nil => exact List.Perm.refl _
  | cons y ys ih =>
    rw [insDescBy]
    split
    · exact List.Perm.refl _
    · exact (List.Perm.cons y ih).trans (List.Perm.swap x y ys)

theorem sortDescBy_perm {α : Type} (f : α → ℚ) (l : List α) :
    (sortDescBy f l).Perm l := by
  induction l with
  | nil => exact List.Perm.refl _
  | cons a t ih =>
    rw [sortDescBy]
    exact (insDescBy_perm f a (sortDescBy f t)).trans (List.Perm.cons a ih)

theorem mem_insDescBy {α : Type} {f : α → ℚ} {x e : α} {l : List α} :
    e ∈ insDescBy f x l ↔ e = x ∨ e ∈ l := by
  rw [(insDescBy_perm f x l).mem_iff, List.mem_cons]

theorem mem_sortDescBy {α : Type} {f : α → ℚ} {e : α} {l : List α} :
    e ∈ sortDescBy f l ↔ e ∈ l :=
  (sortDescBy_perm f l).mem_iff

theorem insDescBy_pairwise {α : Type} (f : α → ℚ) (x : α) {l : List α}
    (h : l.Pairwise (fun a b => f b ≤ f a)) :
    (insDescBy f x l).Pairwise (fun a b => f b ≤ f a) := by
  induction l with
  | nil => simp [insDescBy]
  | cons y ys ih =>
    rw [insDescBy]
    rcases List.pairwise_cons.mp h with ⟨hy, hys⟩
    split
    · rename_i hyx
      refine List.pairwise_cons.mpr ⟨?_, h⟩
      intro e he
      rcases List.mem_cons.mp he with rfl | he'
      · exact hyx
      · exact (hy e he').trans hyx
    · rename_i hyx
      refine List.pairwise_cons.mpr ⟨?_, ih hys⟩
      intro e he
      rcases mem_insDescBy.mp he with rfl | he'
      · exact le_of_lt (lt_of_not_le hyx)
      · exact hy e he'

theorem sortDescBy_pairwise {α : Type} (f : α → ℚ) (l : List α) :
    (sortDescBy f l).Pairwise (fun a b => f b ≤ f a) := by
  induction l with
  | nil => simp [sortDescBy]
  | cons a t ih => exact insDescBy_pairwise f a ih

/-- The head of the stable descending sort is the first maximum of the
input. -/
theorem sortDescBy_head_isFirstMax {α : Type} (f : α → ℚ) :
    ∀ (l : List α) (x : α) (xs : List α), sortDescBy f l = x :: xs →
      IsFirstMaxBy f x l := by
  intro l
  induction l with
  | nil => intro x xs h; simp [sortDescBy] at h
  | cons a t ih =>
    intro x xs h
    rw [sortDescBy] at h
    cases ht : sortDescBy f t with
    | nil =>
      have htnil : t = [] := (ht ▸ sortDescBy_perm f t).symm.eq_nil
      rw [ht] at h
      rw [insDescBy] at h
      injection h with h1 _
      subst h1 htnil
      exact ⟨[], [], rfl, by simp, by simp⟩
    | cons k rest =>
      rw [ht] at h
      rw [insDescBy] at h
      obtain ⟨l₁, l₂, heq, hlt, hle⟩ := ih k rest ht
      split at h
      · rename_i hka
        injection h with h1 _
        subst h1
        refine ⟨[], t, rfl, by simp, ?_⟩
        intro e he
        rcases List.mem_cons.mp he with rfl | he'
        · exact le_refl _
        · exact (hle e he').trans hka
      · rename_i hka
        injection h with h1 _
        subst h1
        refine ⟨a :: l₁, l₂, by rw [heq]; rfl, ?_, ?_⟩
        · intro e he
          rcases List.mem_cons.mp he with rfl | he'
          · exact lt_of_not_le hka
          · exact hlt e he'
        · intro e he
          rcases List.mem_cons.mp he with rfl | he'
          · exact le_of_lt (lt_of_not_le hka)
          · exact hle e he'

/-! ## Lemmas about positions and ranks -/

theorem mem_idxList_le {α : Type} :
    ∀ (n : Nat) (l : List α) (p : Nat × α), p ∈ idxList n l → n ≤ p.1 := by
  intro n l
  induction l generalizing n with
  | nil => intro p hp; simp [idxList] at hp
  | cons x xs ih =>
    intro p hp
    rw [idxList] at hp
    rcases List.mem_cons.mp hp with rfl | hp'
    · exact le_refl _
    · exact le_of_lt (lt_of_lt_of_le (Nat.lt_succ_self n) (ih (n + 1) p hp'))

theorem idxList_pairwise {α : Type} :
    ∀ (n : Nat) (l : List α), (idxList n l).Pairwise (fun p q => p.1 < q.1) := by
  intro n l
  induction l generalizing n with
  | nil => simp [idxList]
  | cons x xs ih =>
    rw [idxList]
    refine List.pairwise_cons.mpr ⟨?_, ih (n + 1)⟩
    intro q hq
    exact lt_of_lt_of_le (Nat.lt_succ_self n) (mem_idxList_le (n + 1) xs q hq)

theorem idxList_append {α : Type} :
    ∀ (l₁ : List α) (n : Nat) (l₂ : List α),
      idxList n (l₁ ++ l₂) = idxList n l₁ ++ idxList (n + l₁.length) l₂ := by
  intro l₁
  induction l₁ with
  | nil => intro n l₂; simp [idxList]
  | cons x xs ih =>
    intro n l₂
    rw [List.cons_append, idxList, idxList, ih (n + 1) l₂, List.cons_append]
    simp only [List.length_cons]
    have h : n + 1 + xs.length = n + (xs.length + 1) := by omega
    rw [h]

theorem rankedAbove_irrefl {α : Type} (f : α → ℚ) (p : Nat × α) :
    rankedAbove f p p = false := by
  simp [rankedAbove]

theorem rankedAbove_asymm {α : Type} (f : α → ℚ) (p q : Nat × α)
    (h : rankedAbove f p q = true) : rankedAbove f q p = false := by
  simp only [rankedAbove, Bool.or_eq_true, Bool.and_eq_true, decide_eq_true_eq] at h ⊢
  simp only [Bool.or_eq_false_iff, Bool.and_eq_false_iff,
    decide_eq_false_iff_not, not_lt]
  rcases h with h | ⟨h1, h2⟩
  · exact ⟨le_of_lt h, Or.inl (ne_of_lt h)⟩
  · exact ⟨le_of_eq h1.symm, Or.inr (by omega)⟩

/-- In a list strictly ordered by `rankedAbove`, the position of a
member equals the number of members ranked above it. -/
theorem rankIn_eq_countP {α : Type} [DecidableEq α] (f : α → ℚ) :
    ∀ (L : List (Nat × α)) (x : Nat × α),
      L.Pairwise (fun a b => rankedAbove f a b = true) → x ∈ L →
      rankIn x L = L.countP (fun e => rankedAbove f e x) := by
  intro L
  induction L with
  | nil => intro x _ hx; simp at hx
  | cons y ys ih =>
    intro x hpw hx
    rcases List.pairwise_cons.mp hpw with ⟨hy, hys⟩
    rw [rankIn, List.countP_cons]
    by_cases hyx : y = x
    · subst hyx
      rw [if_pos rfl, if_neg (by simp [rankedAbove_irrefl])]
      have : ys.countP (fun e => rankedAbove f e y) = 0 := by
        apply List.countP_eq_zero.mpr
        intro e he
        simp only [rankedAbove_asymm f y e (hy e he), Bool.false_eq_true,
          not_false_eq_true]
      omega
    · rw [if_neg hyx]
      have hx' : x ∈ ys := by
        rcases List.mem_cons.mp hx with rfl | h'
        · exact absurd rfl hyx
        · exact h'
      rw [ih x hys hx', if_pos (hy x hx')]

/-- Inserting an element whose original position precedes everything in
an already `rankedAbove`-ordered list keeps the list ordered. -/
theorem insDescBy_pairwise_ranked {α : Type} (f : α → ℚ) (x : Nat × α) :
    ∀ (l : List (Nat × α)),
      l.Pairwise (fun p q => rankedAbove f p q = true) →
      (∀ y ∈ l, x.1 < y.1) →
      (insDescBy (fun p => f p.2) x l).Pairwise
        (fun p q => rankedAbove f p q = true) := by
  intro l
  induction l with
  | nil => intro _ _; simp [insDescBy]
  | cons y ys ih =>
    intro hpw hidx
    rcases List.pairwise_cons.mp hpw with ⟨hy, hys⟩
    rw [insDescBy]
    split
    · rename_i hyx
      refine List.pairwise_cons.mpr ⟨?_, hpw⟩
      intro e he
      have hle : f e.2 ≤ f x.2 := by
        rcases List.mem_cons.mp he with rfl | he'
        · exact hyx
        · have := hy e he'
          simp only [rankedAbove, Bool.or_eq_true, Bool.and_eq_true,
            decide_eq_true_eq] at this
          rcases this with h | ⟨h, _⟩
          · exact (le_of_lt h).trans hyx
          · exact le_of_eq h.symm |>.trans hyx
      rcases lt_or_eq_of_le hle with hlt | heq
      · simp [rankedAbove, hlt]
      · simp [rankedAbove, heq, hidx e he]
    · rename_i hyx
      refine List.pairwise_cons.mpr ⟨?_, ih hys (fun q hq => hidx q (List.mem_cons_of_mem y hq))⟩
      intro e he
      rcases mem_insDescBy.mp he with rfl | he'
      · simp [rankedAbove, lt_of_not_le hyx]
      · exact hy e he'

/-- The stable descending sort of a position-tagged list is strictly
ordered by `rankedAbove`: descending scores, ties in original order. -/
theorem sortDescBy_pairwise_ranked {α : Type} (f : α → ℚ) :
    ∀ (L : List (Nat × α)),
      L.Pairwise (fun p q => p.1 < q.1) →
      (sortDescBy (fun p => f p.2) L).Pairwise
        (fun p q => rankedAbove f p q = true) := by
  intro L
  induction L with
  | nil => simp [sortDescBy]
  | cons x L' ih =>
    intro hpw
    rcases List.pairwise_cons.mp hpw with ⟨hx, hL'⟩
    rw [sortDescBy]
    refine insDescBy_pairwise_ranked f x _ (ih hL') ?_
    intro y hy
    exact hx y (mem_sortDescBy.mp hy)

theorem insDescBy_map_snd {α : Type} (f : α → ℚ) (x : Nat × α) :
    ∀ (l : List (Nat × α)),
      (insDescBy (fun p => f p.2) x l).map Prod.snd = insDescBy f x.2 (l.map Prod.snd) := by
  intro l
  induction l with
  | nil => simp [insDescBy]
  | cons y ys ih =>
    rw [insDescBy]
    split
    · rename_i h
      rw [List.map_cons, List.map_cons, insDescBy, if_pos h]
    · rename_i h
      rw [List.map_cons, List.map_cons, insDescBy, if_neg h, ← ih]

/-- Projecting the tags away after sorting the tagged list gives exactly
the engine's sorted list: the tagged sort is a faithful view of the
code's stable sort. -/
theorem sortDescBy_map_snd {α : Type} (f : α → ℚ) :
    ∀ (L : List (Nat × α)),
      (sortDescBy (fun p => f p.2) L).map Prod.snd = sortDescBy f (L.map Prod.snd) := by
  intro L
  induction L with
  | nil => simp [sortDescBy]
  | cons x L' ih =>
    rw [sortDescBy, List.map_cons, sortDescBy, ← ih]
    exact insDescBy_map_snd f x _

/-! ## Lemmas about scoring -/

theorem scoreOf_mono {c c' : Criteria} (h : critIncrease c c' = true) :
    scoreOf c ≤ scoreOf c' := by
  simp only [critIncrease, Bool.or_eq_true, Bool.and_eq_true, decide_eq_true_eq] at h
  unfold scoreOf
  rcases h with ((((⟨h1, h2, h3, h4, h5, h6, h7⟩ | ⟨h1, h2, h3, h4, h5, h6⟩) |
    ⟨h1, h2, h3, h4, h5, h6⟩) | ⟨h1, h2, h3, h4, h5, h6⟩) |
    ⟨h1, h2, h3, h4, h5, h6⟩) | ⟨h1, h2, h3, h4, h5, h6⟩
  · rw [h3, h4, h5, h6, h7, h1, h2]
    simp only [Bool.false_eq_true, if_false, if_true, ite_true, ite_false]
    linarith
  · rw [h2, h3, h4, h5, h6]
    have hc : ((c.bitRate.getD 0 : Int) : ℚ) ≤ ((c'.bitRate.getD 0 : Int) : ℚ) := by
      exact_mod_cast le_of_lt h1
    linarith
  · rw [h2, h3, h4, h5, h6]
    have hc : ((c.sampleRate.getD 0 : Int) : ℚ) ≤ ((c'.sampleRate.getD 0 : Int) : ℚ) := by
      exact_mod_cast le_of_lt h1
    linarith
  · rw [h2, h3, h4, h5, h6]
    have hc : ((c.fileSize.getD 0 : Int) : ℚ) ≤ ((c'.fileSize.getD 0 : Int) : ℚ) := by
      exact_mod_cast le_of_lt h1
    linarith
  · rw [h2, h3, h4, h5, h6]
    have hc : ((c.playCount.getD 0 : Int) : ℚ) ≤ ((c'.playCount.getD 0 : Int) : ℚ) := by
      exact_mod_cast le_of_lt h1
    linarith
  · rw [h2, h3, h4, h5, h6]
    have hc : ((c.rating.getD 0 : Int) : ℚ) ≤ ((c'.rating.getD 0 : Int) : ℚ) := by
      exact_mod_cast le_of_lt h1
    linarith

theorem exceptBind_ok {α β : Type} (a : α) (f : α → Except String β) :
    (Except.ok a >>= f) = f a := rfl

theorem exceptBind_error {α β : Type} (e : String) (f : α → Except String β) :
    ((Except.error e : Except String α) >>= f) = Except.error e := rfl

/-- The attribute loop never touches the `File Exists` criterion. -/
theorem applyAttr_fileExists {c c₂ : Criteria} {kv : String × String}
    (h : applyAttr c kv = .ok c₂) : c₂.fileExists = c.fileExists := by
  unfold applyAttr at h
  repeat' split at h
  all_goals (first | (injection h with h2; rw [← h2]) | injection h)

theorem foldlM_applyAttr_fileExists :
    ∀ (attrs : List (String × String)) (c₀ c : Criteria),
      List.foldlM applyAttr c₀ attrs = .ok c → c.fileExists = c₀.fileExists := by
  intro attrs
  induction attrs with
  | nil =>
    intro c₀ c h
    simp only [List.foldlM_nil, pure, Except.pure, Except.ok.injEq] at h
    rw [← h]
  | cons kv rest ih =>
    intro c₀ c h
    rw [List.foldlM_cons] at h
    cases hap : applyAttr c₀ kv with
    | error e => rw [hap, exceptBind_error] at h; cases h
    | ok c₁ =>
      rw [hap, exceptBind_ok] at h
      exact (ih c₁ c h).trans (applyAttr_fileExists hap)

/-- Every successfully built evaluation has the `File Exists` criterion
the location test put there, with its stored location. -/
theorem evalTrack_fileExists {fs : String → Bool}
    {src : String → Option (List (String × String))} {t : GTrack} {e : Ev}
    (h : evalTrack fs src t = .ok (some e)) :
    e.criteria.fileExists = (initCriteria fs e.location).fileExists := by
  cases hsrc : src t.trackId with
  | none =>
    simp only [evalTrack, hsrc] at h
    injection h with h'
    cases h'
  | some attrs =>
    simp only [evalTrack, hsrc] at h
    cases hbc : buildCriteria fs (t.location.getD "") attrs with
    | error m =>
      rw [hbc, exceptBind_error] at h
      cases h
    | ok cc =>
      rw [hbc, exceptBind_ok] at h
      injection h with h'
      injection h' with h''
      rw [← h'']
      unfold buildCriteria at hbc
      exact foldlM_applyAttr_fileExists attrs _ cc hbc

theorem collectEvals_fileExists {fs : String → Bool}
    {src : String → Option (List (String × String))} :
    ∀ (g : List GTrack) (l : List Ev), collectEvals fs src g = .ok l →
      ∀ e ∈ l, e.criteria.fileExists = (initCriteria fs e.location).fileExists := by
  intro g
  induction g with
  | nil =>
    intro l h e he
    unfold collectEvals at h
    injection h with h'
    rw [← h'] at he
    simp at he
  | cons t ts ih =>
    intro l h e he
    unfold collectEvals at h
    cases hev : evalTrack fs src t with
    | error m => rw [hev, exceptBind_error] at h; cases h
    | ok o =>
      rw [hev, exceptBind_ok] at h
      cases hrest : collectEvals fs src ts with
      | error m => rw [hrest, exceptBind_error] at h; cases h
      | ok rest =>
        rw [hrest, exceptBind_ok] at h
        cases o with
        | none =>
          injection h with h'
          rw [← h'] at he
          exact ih rest hrest e he
        | some e₁ =>
          injection h with h'
          rw [← h'] at he
          rcases List.mem_cons.mp he with rfl | he'
          · exact evalTrack_fileExists hev
          · exact ih rest hrest e he'

/-- The code's score of a criteria dict equals the claimed formula
whenever the `File Exists` criterion is the one the location test
produces. -/
theorem scoreOf_eq_claim {fs : String → Bool} {loc : String} {c : Criteria}
    (h : c.fileExists = (initCriteria fs loc).fileExists) :
    scoreOf c = claimScoreFormula fs loc c := by
  unfold initCriteria at h
  unfold scoreOf claimScoreFormula
  by_cases hs : pyStartsWith loc "file://"
  · rw [if_pos hs] at h
    simp only at h
    rw [h, hs]
    simp [Option.getD]
  · rw [if_neg hs] at h
    simp only at h
    rw [h]
    have hs' : pyStartsWith loc "file://" = false := by
      revert hs
      cases pyStartsWith loc "file://" <;> simp
    rw [hs']
    simp [Option.getD]

theorem mem_addScores {l : List Ev} {e : Ev} (h : e ∈ addScores l) :
    ∃ x ∈ l, e = { x with score := scoreOf x.criteria } := by
  rcases List.mem_map.mp h with ⟨x, hx, rfl⟩
  exact ⟨x, hx, rfl⟩

/-- Marking recommendations changes only the `Recommendation` field of
each member. -/
theorem mem_markRecs {l : List Ev} {e : Ev} (h : e ∈ markRecs l) :
    ∃ x ∈ l, e.score = x.score ∧ e.location = x.location ∧ e.criteria = x.criteria := by
  cases l with
  | nil => simp [markRecs] at h
  | cons x xs =>
    rw [markRecs] at h
    rcases List.mem_cons.mp h with rfl | h'
    · exact ⟨x, List.mem_cons_self x xs, rfl, rfl, rfl⟩
    · rcases List.mem_map.mp h' with ⟨y, hy, rfl⟩
      exact ⟨y, List.mem_cons_of_mem x hy, rfl, rfl, rfl⟩

/-- C1.  Every track evaluated within a duplicate group gets the Score
`(1000 if the location is a local file:// URI whose %20-decoded path
exists, else 0) + bit_rate + sample_rate/100 + file_size/1000000 +
play_count*5 + rating*10`, missing criteria contributing 0 and
non-`file://` locations getting neither bonus nor penalty. -/
theorem evaluated_score_is_claimed_formula :
    ∀ (fs : String → Bool) (src : String → Option (List (String × String)))
      (g : List GTrack) (out : List Ev),
      evaluateGroup fs src g = .ok out →
      ∀ e ∈ out, e.score = claimScoreFormula fs e.location e.criteria := by
  intro fs src g out h e he
  unfold evaluateGroup at h
  cases hsc : scoredOf fs src g with
  | error m => rw [hsc, exceptBind_error] at h; cases h
  | ok scored =>
    rw [hsc, exceptBind_ok] at h
    unfold scoredOf at hsc
    cases hce : collectEvals fs src g with
    | error m => rw [hce] at hsc; cases hsc
    | ok l =>
      rw [hce] at hsc
      have hscored : addScores l = scored := by
        injection hsc
      have hP : ∀ x ∈ scored, x.score = claimScoreFormula fs x.location x.criteria := by
        intro x hx
        rw [← hscored] at hx
        obtain ⟨y, hy, rfl⟩ := mem_addScores hx
        exact scoreOf_eq_claim (collectEvals_fileExists g l hce y hy)
      split at h
      · simp only [pure, Except.pure, Except.ok.injEq] at h
        rw [← h] at he
        simp at he
      · simp only [pure, Except.pure, Except.ok.injEq] at h
        rw [← h] at he
        obtain ⟨x, hx, hs', hloc, hcrit⟩ := mem_markRecs he
        rw [hs', hloc, hcrit]
        exact hP x (mem_sortDescBy.mp hx)

/-- C2.  In every non-empty evaluated group exactly one track is marked
KEEP: the head of the stable descending sort, which is the first
maximum-score evaluation in encounter order; every other track is
marked REMOVE. -/
theorem exactly_one_keep_top_ranked :
    ∀ (fs : String → Bool) (src : String → Option (List (String × String)))
      (g : List GTrack) (scored : List Ev),
      scoredOf fs src g = .ok scored → scored ≠ [] →
      ∃ x xs, sortDescBy Ev.score scored = x :: xs ∧
        evaluateGroup fs src g =
          .ok ({ x with recommendation := some .KEEP } ::
            xs.map (fun y => { y with recommendation := some .REMOVE })) ∧
        IsFirstMaxBy Ev.score x scored ∧
        (({ x with recommendation := some .KEEP } ::
            xs.map (fun y => { y with recommendation := some .REMOVE })).countP
          (fun e => decide (e.recommendation = some Recommendation.KEEP)) = 1) ∧
        ∀ e ∈ xs.map (fun y => { y with recommendation := some .REMOVE }),
          e.recommendation = some Recommendation.REMOVE := by
  intro fs src g scored hsc hne
  cases hsort : sortDescBy Ev.score scored with
  | nil => exact absurd (hsort ▸ sortDescBy_perm Ev.score scored).symm.eq_nil hne
  | cons x xs =>
    refine ⟨x, xs, rfl, ?_, ?_, ?_, ?_⟩
    · unfold evaluateGroup
      rw [hsc, exceptBind_ok, if_neg hne, hsort]
      rw [markRecs]
      rfl
    · exact sortDescBy_head_isFirstMax Ev.score scored x xs hsort
    · rw [List.countP_cons, List.countP_map]
      have h0 : xs.countP
          ((fun e => decide (e.recommendation = some Recommendation.KEEP)) ∘
            (fun y => { y with recommendation := some .REMOVE })) = 0 := by
        apply List.countP_eq_zero.mpr
        intro e _
        simp
      rw [h0]
      simp
    · intro e he
      rcases List.mem_map.mp he with ⟨y, _, rfl⟩
      rfl

theorem idxList_map_snd {α : Type} :
    ∀ (n : Nat) (l : List α), (idxList n l).map Prod.snd = l := by
  intro n l
  induction l generalizing n with
  | nil => rfl
  | cons x xs ih => rw [idxList, List.map_cons, ih (n + 1)]

theorem rankedAbove_mono_target {α : Type} (f : α → ℚ) {a a' : α} {i : Nat}
    (hle : f a ≤ f a') :
    ∀ p : Nat × α, rankedAbove f p (i, a') = true → rankedAbove f p (i, a) = true := by
  intro p h
  simp only [rankedAbove, Bool.or_eq_true, Bool.and_eq_true, decide_eq_true_eq] at h ⊢
  rcases h with h | ⟨h1, h2⟩
  · exact Or.inl (lt_of_le_of_lt hle h)
  · rcases lt_or_eq_of_le hle with hlt | heq
    · exact Or.inl (h1 ▸ hlt)
    · exact Or.inr ⟨h1.trans heq.symm, h2⟩

/-- C9.  Increasing a single positive-weighted criterion of one track,
everything else unchanged, never pushes that track down in the sorted
ranking of its group; the tagged sort ranks project to the engine's
sorted list. -/
theorem criterion_increase_never_lowers_rank :
    ∀ (l₁ l₂ : List Ev) (t t' : Ev),
      critIncrease t.criteria t'.criteria = true →
      t.score = scoreOf t.criteria →
      t'.score = scoreOf t'.criteria →
      rankIn (l₁.length, t') (sortDescBy (fun p => p.2.score) (idxList 0 (l₁ ++ t' :: l₂)))
          ≤ rankIn (l₁.length, t) (sortDescBy (fun p => p.2.score) (idxList 0 (l₁ ++ t :: l₂)))
        ∧ (sortDescBy (fun p => p.2.score) (idxList 0 (l₁ ++ t' :: l₂))).map Prod.snd
            = sortDescBy Ev.score (l₁ ++ t' :: l₂) := by
  intro l₁ l₂ t t' hinc hs hs'
  have hscore : t.score ≤ t'.score := by rw [hs, hs']; exact scoreOf_mono hinc
  have hL' : idxList 0 (l₁ ++ t' :: l₂)
      = idxList 0 l₁ ++ (l₁.length, t') :: idxList (l₁.length + 1) l₂ := by
    rw [idxList_append, idxList]
    norm_num
  have hL : idxList 0 (l₁ ++ t :: l₂)
      = idxList 0 l₁ ++ (l₁.length, t) :: idxList (l₁.length + 1) l₂ := by
    rw [idxList_append, idxList]
    norm_num
  constructor
  · have hpw' := sortDescBy_pairwise_ranked Ev.score (idxList 0 (l₁ ++ t' :: l₂))
      (idxList_pairwise 0 _)
    have hpw := sortDescBy_pairwise_ranked Ev.score (idxList 0 (l₁ ++ t :: l₂))
      (idxList_pairwise 0 _)
    have hmem' : (l₁.length, t') ∈ sortDescBy (fun p => p.2.score) (idxList 0 (l₁ ++ t' :: l₂)) := by
      rw [mem_sortDescBy, hL']
      exact List.mem_append_right _ (List.mem_cons_self _ _)
    have hmem : (l₁.length, t) ∈ sortDescBy (fun p => p.2.score) (idxList 0 (l₁ ++ t :: l₂)) := by
      rw [mem_sortDescBy, hL]
      exact List.mem_append_right _ (List.mem_cons_self _ _)
    rw [rankIn_eq_countP Ev.score _ _ hpw' hmem', rankIn_eq_countP Ev.score _ _ hpw hmem]
    rw [(sortDescBy_perm _ _).countP_eq, (sortDescBy_perm _ _).countP_eq]
    rw [hL', hL]
    rw [List.countP_append, List.countP_append, List.countP_cons, List.countP_cons]
    have hirr : (if rankedAbove Ev.score (l₁.length, t') (l₁.length, t') then 1 else 0) = 0 := by
      rw [rankedAbove_irrefl]
      rfl
    rw [hirr]
    have h1 : (idxList 0 l₁).countP (fun e => rankedAbove Ev.score e (l₁.length, t'))
        ≤ (idxList 0 l₁).countP (fun e => rankedAbove Ev.score e (l₁.length, t)) :=
      List.countP_mono_left (fun p _ hp => rankedAbove_mono_target Ev.score hscore p hp)
    have h2 : (idxList (l₁.length + 1) l₂).countP
          (fun e => rankedAbove Ev.score e (l₁.length, t'))
        ≤ (idxList (l₁.length + 1) l₂).countP
          (fun e => rankedAbove Ev.score e (l₁.length, t)) :=
      List.countP_mono_left (fun p _ hp => rankedAbove_mono_target Ev.score hscore p hp)
    omega
  · rw [sortDescBy_map_snd, idxList_map_snd]

/-! ## Lemmas about grouping -/

/-- Properties of every (key, entry) pair are preserved by a
`defaultdict` append of a pair satisfying the property. -/
theorem insertGroup_forall {κ ε : Type} [DecidableEq κ] (P : κ → ε → Prop) :
    ∀ (gs : List (κ × List ε)) (k : κ) (e : ε),
      (∀ p ∈ gs, ∀ x ∈ p.2, P p.1 x) → P k e →
      ∀ p ∈ insertGroup gs k e, ∀ x ∈ p.2, P p.1 x := by
  intro gs
  induction gs with
  | nil =>
    intro k e _ hP p hp x hx
    simp only [insertGroup, List.mem_singleton] at hp
    subst hp
    simp only [List.mem_singleton] at hx
    subst hx
    exact hP
  | cons g rest ih =>
    obtain ⟨k', es⟩ := g
    intro k e hall hP p hp x hx
    rw [insertGroup] at hp
    split at hp
    · rename_i hk
      rcases List.mem_cons.mp hp with rfl | hp'
      · rcases List.mem_append.mp hx with hx' | hx'
        · exact hall (k', es) (List.mem_cons_self _ _) x hx'
        · simp only [List.mem_singleton] at hx'
          subst hx'
          simpa [hk] using hP
      · exact hall p (List.mem_cons_of_mem _ hp') x hx
    · rcases List.mem_cons.mp hp with rfl | hp'
      · exact hall _ (List.mem_cons_self _ _) x hx
      · exact ih k e (fun q hq => hall q (List.mem_cons_of_mem _ hq)) hP p hp' x hx

/-- Each step of the grouping fold either leaves the accumulator alone
(track without location) or performs a `defaultdict` append, so any
property preserved by `insertGroup` survives the whole fold. -/
theorem foldl_insert_preserve {ι κ ε : Type} [DecidableEq κ]
    (step : List (κ × List ε) → ι → List (κ × List ε))
    (hstep : ∀ acc i, step acc i = acc ∨ ∃ k e, step acc i = insertGroup acc k e)
    (Q : List (κ × List ε) → Prop)
    (hQ : ∀ acc k e, Q acc → Q (insertGroup acc k e)) :
    ∀ (ts : List ι) (acc : List (κ × List ε)), Q acc → Q (ts.foldl step acc) := by
  intro ts
  induction ts with
  | nil => intro acc h; exact h
  | cons i is ih =>
    intro acc h
    rw [List.foldl_cons]
    apply ih
    rcases hstep acc i with he | ⟨k, e, he⟩
    · rw [he]; exact h
    · rw [he]; exact hQ acc k e h

theorem metadataStep_cases (acc : List (MetaKey × List MEntry)) (p : String × Track) :
    (match p.2.location with
      | none => acc
      | some _ => insertGroup acc (metadataKey p.2) (mkMEntry p.1 p.2)) = acc
    ∨ ∃ k e, (match p.2.location with
      | none => acc
      | some _ => insertGroup acc (metadataKey p.2) (mkMEntry p.1 p.2)) =
        insertGroup acc k e := by
  cases p.2.location with
  | none => exact Or.inl rfl
  | some loc => exact Or.inr ⟨metadataKey p.2, mkMEntry p.1 p.2, rfl⟩

theorem locationStep_cases (acc : List (String × List LEntry)) (p : String × Track) :
    (match p.2.location with
      | none => acc
      | some loc => insertGroup acc loc (mkLEntry p.1 p.2)) = acc
    ∨ ∃ k e, (match p.2.location with
      | none => acc
      | some loc => insertGroup acc loc (mkLEntry p.1 p.2)) =
        insertGroup acc k e := by
  cases hl : p.2.location with
  | none => exact Or.inl rfl
  | some loc => exact Or.inr ⟨loc, mkLEntry p.1 p.2, rfl⟩

/-- The key list after a `defaultdict` append: unchanged if the key was
present, extended by the key otherwise. -/
theorem insertGroup_keys {κ ε : Type} [DecidableEq κ] :
    ∀ (gs : List (κ × List ε)) (k : κ) (e : ε),
      (insertGroup gs k e).map Prod.fst =
        if k ∈ gs.map Prod.fst then gs.map Prod.fst else gs.map Prod.fst ++ [k] := by
  intro gs
  induction gs with
  | nil => intro k e; simp [insertGroup]
  | cons g rest ih =>
    obtain ⟨k', es⟩ := g
    intro k e
    rw [insertGroup]
    split
    · rename_i hk
      subst hk
      simp
    · rename_i hk
      have hk' : k' ≠ k := hk
      rw [List.map_cons, ih k e, List.map_cons]
      by_cases hmem : k ∈ rest.map Prod.fst
      · rw [if_pos hmem, if_pos]
        simp [hmem]
      · rw [if_neg hmem, if_neg]
        · rfl
        · simp only [List.mem_cons]
          rintro (h | h)
          · exact hk' h.symm
          · exact hmem h

theorem insertGroup_keys_nodup {κ ε : Type} [DecidableEq κ]
    (gs : List (κ × List ε)) (k : κ) (e : ε)
    (h : (gs.map Prod.fst).Nodup) : ((insertGroup gs k e).map Prod.fst).Nodup := by
  rw [insertGroup_keys]
  split
  · exact h
  · rename_i hmem
    simp [List.nodup_append, h, hmem]

theorem metadataGroups_keys_nodup (tracks : List (String × Track)) :
    ((metadataGroups tracks).map Prod.fst).Nodup := by
  unfold metadataGroups
  exact foldl_insert_preserve _ metadataStep_cases
    (fun gs => (gs.map Prod.fst).Nodup)
    (fun acc k e h => insertGroup_keys_nodup acc k e h) tracks [] (by simp)

theorem locationGroups_keys_nodup (tracks : List (String × Track)) :
    ((locationGroups tracks).map Prod.fst).Nodup := by
  unfold locationGroups
  exact foldl_insert_preserve _ locationStep_cases
    (fun gs => (gs.map Prod.fst).Nodup)
    (fun acc k e h => insertGroup_keys_nodup acc k e h) tracks [] (by simp)

/-- In an association list with distinct keys, a key determines its
group. -/
theorem assoc_unique {κ ε : Type} :
    ∀ (gs : List (κ × List ε)), (gs.map Prod.fst).Nodup →
      ∀ (k : κ) (g g' : List ε), (k, g) ∈ gs → (k, g') ∈ gs → g = g' := by
  intro gs
  induction gs with
  | nil => intro _ k g g' h; simp at h
  | cons q rest ih =>
    intro hnd k g g' hg hg'
    rw [List.map_cons, List.nodup_cons] at hnd
    rcases List.mem_cons.mp hg with rfl | hg2
    · rcases List.mem_cons.mp hg' with heq | hg2'
      · injection heq with _ h2; exact h2.symm
      · exact absurd (List.mem_map.mpr ⟨(k, g'), hg2', rfl⟩) hnd.1
    · rcases List.mem_cons.mp hg' with rfl | hg2'
      · exact absurd (List.mem_map.mpr ⟨(k, g), hg2, rfl⟩) hnd.1
      · exact ih hnd.2 k g g' hg2 hg2'

theorem insertGroup_mem_self {κ ε : Type} [DecidableEq κ] :
    ∀ (gs : List (κ × List ε)) (k : κ) (e : ε),
      ∃ g, (k, g) ∈ insertGroup gs k e ∧ e ∈ g := by
  intro gs
  induction gs with
  | nil => intro k e; exact ⟨[e], List.mem_singleton_self _, List.mem_singleton_self _⟩
  | cons q rest ih =>
    obtain ⟨k', es⟩ := q
    intro k e
    rw [insertGroup]
    split
    · rename_i hk
      subst hk
      exact ⟨es ++ [e], List.mem_cons_self _ _, List.mem_append_right _ (List.mem_singleton_self _)⟩
    · obtain ⟨g, hg, he⟩ := ih k e
      exact ⟨g, List.mem_cons_of_mem _ hg, he⟩

theorem insertGroup_mem_mono {κ ε : Type} [DecidableEq κ] :
    ∀ (gs : List (κ × List ε)) (k₂ : κ) (e₂ : ε) (k : κ) (g : List ε) (x : ε),
      (k, g) ∈ gs → x ∈ g →
      ∃ g', (k, g') ∈ insertGroup gs k₂ e₂ ∧ x ∈ g' := by
  intro gs
  induction gs with
  | nil => intro k₂ e₂ k g x hg; simp at hg
  | cons q rest ih =>
    obtain ⟨k', es⟩ := q
    intro k₂ e₂ k g x hg hx
    rw [insertGroup]
    split
    · rcases List.mem_cons.mp hg with heq | hg2
      · injection heq with h1 h2
        subst h1
        subst h2
        exact ⟨g ++ [e₂], List.mem_cons_self _ _, List.mem_append_left _ hx⟩
      · exact ⟨g, List.mem_cons_of_mem _ hg2, hx⟩
    · rcases List.mem_cons.mp hg with heq | hg2
      · injection heq with h1 h2
        subst h1
        subst h2
        exact ⟨g, List.mem_cons_self _ _, hx⟩
      · obtain ⟨g', hg', hx'⟩ := ih k₂ e₂ k g x hg2 hx
        exact ⟨g', List.mem_cons_of_mem _ hg', hx'⟩

theorem metadataGroups_entries (P : MetaKey → MEntry → Prop) :
    ∀ (ts : List (String × Track)) (acc : List (MetaKey × List MEntry)),
      (∀ p ∈ acc, ∀ x ∈ p.2, P p.1 x) →
      (∀ q ∈ ts, q.2.location.isSome → P (metadataKey q.2) (mkMEntry q.1 q.2)) →
      ∀ p ∈ ts.foldl (fun gs p =>
          match p.2.location with
          | none => gs
          | some _ => insertGroup gs (metadataKey p.2) (mkMEntry p.1 p.2)) acc,
        ∀ x ∈ p.2, P p.1 x := by
  intro ts
  induction ts with
  | nil => intro acc hacc _ p hp; exact hacc p hp
  | cons q qs ih =>
    intro acc hacc hts
    rw [List.foldl_cons]
    apply ih
    · cases hl : q.2.location with
      | none => exact hacc
      | some loc =>
        exact insertGroup_forall P acc _ _ hacc
          (hts q (List.mem_cons_self _ _) (by rw [hl]; rfl))
    · intro q' hq' hq'some
      exact hts q' (List.mem_cons_of_mem _ hq') hq'some

theorem metadataGroups_entry_origin (tracks : List (String × Track)) :
    ∀ p ∈ metadataGroups tracks, ∀ x ∈ p.2,
      ∃ q, q ∈ tracks ∧ q.2.location.isSome ∧ x = mkMEntry q.1 q.2 ∧
        metadataKey q.2 = p.1 := by
  unfold metadataGroups
  apply metadataGroups_entries
    (fun k x => ∃ q, q ∈ tracks ∧ q.2.location.isSome ∧ x = mkMEntry q.1 q.2 ∧
      metadataKey q.2 = k) tracks []
  · intro p hp
    simp at hp
  · intro q hq hsome
    exact ⟨q, hq, hsome, rfl, rfl⟩

theorem locationGroups_entries (P : String → LEntry → Prop) :
    ∀ (ts : List (String × Track)) (acc : List (String × List LEntry)),
      (∀ p ∈ acc, ∀ x ∈ p.2, P p.1 x) →
      (∀ q ∈ ts, ∀ loc, q.2.location = some loc → P loc (mkLEntry q.1 q.2)) →
      ∀ p ∈ ts.foldl (fun gs p =>
          match p.2.location with
          | none => gs
          | some loc => insertGroup gs loc (mkLEntry p.1 p.2)) acc,
        ∀ x ∈ p.2, P p.1 x := by
  intro ts
  induction ts with
  | nil => intro acc hacc _ p hp; exact hacc p hp
  | cons q qs ih =>
    intro acc hacc hts
    rw [List.foldl_cons]
    apply ih
    · cases hl : q.2.location with
      | none => exact hacc
      | some loc =>
        exact insertGroup_forall P acc _ _ hacc (hts q (List.mem_cons_self _ _) loc hl)
    · intro q' hq' loc hl
      exact hts q' (List.mem_cons_of_mem _ hq') loc hl

theorem locationGroups_entry_origin (tracks : List (String × Track)) :
    ∀ p ∈ locationGroups tracks, ∀ x ∈ p.2,
      ∃ q, q ∈ tracks ∧ q.2.location = some p.1 ∧ x = mkLEntry q.1 q.2 := by
  unfold locationGroups
  apply locationGroups_entries
    (fun k x => ∃ q, q ∈ tracks ∧ q.2.location = some k ∧ x = mkLEntry q.1 q.2) tracks []
  · intro p hp
    simp at hp
  · intro q hq loc hl
    exact ⟨q, hq, hl, rfl⟩

/-- Every located track ends up, as its entry, in the group of its
metadata key. -/
theorem metadataGroups_fold_complete :
    ∀ (ts : List (String × Track)) (acc : List (MetaKey × List MEntry))
      (id : String) (t : Track),
      (id, t) ∈ ts → t.location.isSome →
      ∃ g, (metadataKey t, g) ∈ ts.foldl (fun gs p =>
          match p.2.location with
          | none => gs
          | some _ => insertGroup gs (metadataKey p.2) (mkMEntry p.1 p.2)) acc ∧
        mkMEntry id t ∈ g := by
  intro ts
  induction ts with
  | nil => intro acc id t h; simp at h
  | cons q qs ih =>
    intro acc id t hmem hsome
    rw [List.foldl_cons]
    rcases List.mem_cons.mp hmem with heq | hmem'
    · cases heq
      obtain ⟨loc, hl⟩ := Option.isSome_iff_exists.mp hsome
      have hstep : (match (id, t).2.location with
          | none => acc
          | some _ => insertGroup acc (metadataKey (id, t).2) (mkMEntry (id, t).1 (id, t).2)) =
          insertGroup acc (metadataKey t) (mkMEntry id t) := by
        simp [hl]
      rw [hstep]
      obtain ⟨g₀, hg₀, he₀⟩ := insertGroup_mem_self acc (metadataKey t) (mkMEntry id t)
      exact foldl_insert_preserve _ metadataStep_cases
        (fun gs => ∃ g, (metadataKey t, g) ∈ gs ∧ mkMEntry id t ∈ g)
        (fun acc' k e h => by
          obtain ⟨g, hg, hx⟩ := h
          exact insertGroup_mem_mono acc' k e _ g _ hg hx)
        qs _ ⟨g₀, hg₀, he₀⟩
    · exact ih _ id t hmem' hsome

theorem metadataGroups_complete (tracks : List (String × Track)) (id : String)
    (t : Track) (hmem : (id, t) ∈ tracks) (hsome : t.location.isSome) :
    ∃ g, (metadataKey t, g) ∈ metadataGroups tracks ∧ mkMEntry id t ∈ g :=
  metadataGroups_fold_complete tracks [] id t hmem hsome

/-! ## Order lemmas for Python string comparison -/

theorem charsLe_total : ∀ (as bs : List Char),
    charsLe as bs = true ∨ charsLe bs as = true := by
  intro as
  induction as with
  | nil => intro bs; exact Or.inl rfl
  | cons a as ih =>
    intro bs
    cases bs with
    | nil => exact Or.inr rfl
    | cons b bs' =>
      rw [charsLe, charsLe]
      by_cases hab : a = b
      · subst hab
        rw [if_pos rfl, if_pos rfl]
        exact ih bs'
      · rw [if_neg hab, if_neg (Ne.symm hab)]
        rcases lt_trichotomy a b with h | h | h
        · exact Or.inl (decide_eq_true h)
        · exact absurd h hab
        · exact Or.inr (decide_eq_true h)

theorem charsLe_antisymm : ∀ (as bs : List Char),
    charsLe as bs = true → charsLe bs as = true → as = bs := by
  intro as
  induction as with
  | nil =>
    intro bs h₁ h₂
    cases bs with
    | nil => rfl
    | cons b bs' => simp [charsLe] at h₂
  | cons a as ih =>
    intro bs h₁ h₂
    cases bs with
    | nil => simp [charsLe] at h₁
    | cons b bs' =>
      rw [charsLe] at h₁ h₂
      by_cases hab : a = b
      · subst hab
        rw [if_pos rfl] at h₁ h₂
        rw [ih bs' h₁ h₂]
      · rw [if_neg hab] at h₁
        rw [if_neg (Ne.symm hab)] at h₂
        exact absurd (of_decide_eq_true h₂) (lt_asymm (of_decide_eq_true h₁))

theorem charsLe_trans : ∀ (as bs cs : List Char),
    charsLe as bs = true → charsLe bs cs = true → charsLe as cs = true := by
  intro as
  induction as with
  | nil => intro bs cs _ _; rfl
  | cons a as ih =>
    intro bs cs h₁ h₂
    cases bs with
    | nil => simp [charsLe] at h₁
    | cons b bs' =>
      cases cs with
      | nil => simp [charsLe] at h₂
      | cons c cs' =>
        rw [charsLe] at h₁ h₂ ⊢
        by_cases hab : a = b
        · subst hab
          rw [if_pos rfl] at h₁
          by_cases hac : a = c
          · subst hac
            rw [if_pos rfl] at h₂ ⊢
            exact ih bs' cs' h₁ h₂
          · rw [if_neg hac] at h₂ ⊢
            exact h₂
        · rw [if_neg hab] at h₁
          have hlt₁ : a < b := of_decide_eq_true h₁
          by_cases hbc : b = c
          · subst hbc
            rw [if_neg hab]
            exact decide_eq_true hlt₁
          · rw [if_neg hbc] at h₂
            have hlt₂ : b < c := of_decide_eq_true h₂
            have hac : a < c := lt_trans hlt₁ hlt₂
            rw [if_neg (ne_of_lt hac)]
            exact decide_eq_true hac

instance : IsTotal String (fun a b => pyStrLe a b = true) :=
  ⟨fun a b => charsLe_total a.toList b.toList⟩

instance : IsTrans String (fun a b => pyStrLe a b = true) :=
  ⟨fun a b c => charsLe_trans a.toList b.toList c.toList⟩

instance : IsAntisymm String (fun a b => pyStrLe a b = true) :=
  ⟨fun a b h₁ h₂ => String.ext (charsLe_antisymm a.toList b.toList h₁ h₂)⟩

theorem pySorted_perm (l : List String) : (pySorted l).Perm l :=
  List.perm_insertionSort _ l

/-- Permuted identifier lists have identical `sorted()` results. -/
theorem pySorted_eq_of_perm {l l' : List String} (h : l.Perm l') :
    pySorted l = pySorted l' := by
  apply List.eq_of_perm_of_sorted (r := fun a b => pyStrLe a b = true)
  · exact (pySorted_perm l).trans (h.trans (pySorted_perm l').symm)
  · exact List.sorted_insertionSort _ l
  · exact List.sorted_insertionSort _ l'

/-- Whatever the allowlist, emitted metadata groups come from the
size-filtered grouping. -/
theorem find_meta_subset (tracks : List (String × Track)) (al : Option Allowlist) :
    ∀ p ∈ find_duplicates_by_metadata tracks al, p ∈ metadataDups tracks := by
  intro p hp
  cases al with
  | none => exact hp
  | some a =>
    simp only [find_duplicates_by_metadata] at hp
    cases ha : a.metadataDuplicates with
    | none => rw [ha] at hp; exact hp
    | some allowed => rw [ha] at hp; exact List.mem_of_mem_filter hp

theorem find_loc_subset (tracks : List (String × Track)) (al : Option Allowlist) :
    ∀ p ∈ find_duplicates_by_location tracks al, p ∈ locationDups tracks := by
  intro p hp
  cases al with
  | none => exact hp
  | some a =>
    simp only [find_duplicates_by_location] at hp
    cases ha : a.locationDuplicates with
    | none => rw [ha] at hp; exact hp
    | some allowed => rw [ha] at hp; exact List.mem_of_mem_filter hp

theorem one_lt_length_of_two_mem {α : Type} {a b : α} {l : List α}
    (ha : a ∈ l) (hb : b ∈ l) (hne : a ≠ b) : 1 < l.length := by
  cases l with
  | nil => simp at ha
  | cons x xs =>
    cases xs with
    | nil =>
      simp only [List.mem_singleton] at ha hb
      exact absurd (ha.trans hb.symm) hne
    | cons y ys =>
      simp only [List.length_cons]
      omega

/-- C3.  Every emitted duplicate group (metadata or location side, with
or without an allowlist) has at least 2 members, and every member is
the record of a source track that has a `Location` attribute. -/
theorem emitted_groups_size_two_and_located :
    ∀ (tracks : List (String × Track)) (al : Option Allowlist),
      (∀ p ∈ find_duplicates_by_metadata tracks al, 2 ≤ p.2.length ∧
        ∀ e ∈ p.2, ∃ q, q ∈ tracks ∧ q.2.location.isSome ∧ e = mkMEntry q.1 q.2) ∧
      (∀ p ∈ find_duplicates_by_location tracks al, 2 ≤ p.2.length ∧
        ∀ e ∈ p.2, ∃ q, q ∈ tracks ∧ q.2.location.isSome ∧ e = mkLEntry q.1 q.2) := by
  intro tracks al
  constructor
  · intro p hp
    have hp' := find_meta_subset tracks al p hp
    have hlen : 1 < p.2.length := by
      have := List.of_mem_filter hp'
      simpa using this
    refine ⟨hlen, ?_⟩
    intro e he
    obtain ⟨q, hq, hsome, heq, _⟩ :=
      metadataGroups_entry_origin tracks p (List.mem_of_mem_filter hp') e he
    exact ⟨q, hq, hsome, heq⟩
  · intro p hp
    have hp' := find_loc_subset tracks al p hp
    have hlen : 1 < p.2.length := by
      have := List.of_mem_filter hp'
      simpa using this
    refine ⟨hlen, ?_⟩
    intro e he
    obtain ⟨q, hq, hsome, heq⟩ :=
      locationGroups_entry_origin tracks p (List.mem_of_mem_filter hp') e he
    exact ⟨q, hq, by rw [hsome]; rfl, heq⟩

/-- C6.  The metadata key contains the lower-cased extension: members of
one emitted metadata group always agree on the extension (so tracks
with different extensions are never grouped together), while two
distinct located tracks with the same full metadata key (same tags,
duration and extension) but different locations always land in one
metadata group. -/
theorem extension_splits_and_metadata_joins :
    (∀ (tracks : List (String × Track)) (al : Option Allowlist),
      ∀ p ∈ find_duplicates_by_metadata tracks al,
        ∀ e₁ ∈ p.2, ∀ e₂ ∈ p.2, e₁.fileExtension = e₂.fileExtension) ∧
    (∀ (tracks : List (String × Track)) (id₁ id₂ : String) (t₁ t₂ : Track),
      (id₁, t₁) ∈ tracks → (id₂, t₂) ∈ tracks → id₁ ≠ id₂ →
      t₁.location.isSome → t₂.location.isSome →
      metadataKey t₁ = metadataKey t₂ → t₁.location ≠ t₂.location →
      ∃ g, (metadataKey t₁, g) ∈ find_duplicates_by_metadata tracks none ∧
        mkMEntry id₁ t₁ ∈ g ∧ mkMEntry id₂ t₂ ∈ g) := by
  constructor
  · intro tracks al p hp e₁ he₁ e₂ he₂
    have hp' := List.mem_of_mem_filter (find_meta_subset tracks al p hp)
    obtain ⟨q₁, _, _, heq₁, hk₁⟩ := metadataGroups_entry_origin tracks p hp' e₁ he₁
    obtain ⟨q₂, _, _, heq₂, hk₂⟩ := metadataGroups_entry_origin tracks p hp' e₂ he₂
    have h₁ : e₁.fileExtension = p.1.fileExtension := by
      rw [heq₁, ← hk₁]; rfl
    have h₂ : e₂.fileExtension = p.1.fileExtension := by
      rw [heq₂, ← hk₂]; rfl
    rw [h₁, h₂]
  · intro tracks id₁ id₂ t₁ t₂ h₁ h₂ hid hsome₁ hsome₂ hkey _
    obtain ⟨g₁, hg₁, he₁⟩ := metadataGroups_complete tracks id₁ t₁ h₁ hsome₁
    obtain ⟨g₂, hg₂, he₂⟩ := metadataGroups_complete tracks id₂ t₂ h₂ hsome₂
    rw [← hkey] at hg₂
    have hgg : g₁ = g₂ :=
      assoc_unique _ (metadataGroups_keys_nodup tracks) _ g₁ g₂ hg₁ hg₂
    subst hgg
    have hne : mkMEntry id₁ t₁ ≠ mkMEntry id₂ t₂ := by
      intro h
      exact hid (congrArg MEntry.trackId h)
    have hlen : 1 < g₁.length := one_lt_length_of_two_mem he₁ he₂ hne
    refine ⟨g₁, ?_, he₁, he₂⟩
    show (metadataKey t₁, g₁) ∈ metadataDups tracks
    exact List.mem_filter.mpr ⟨hg₁, by simpa using hlen⟩

/-- C4 counterexample.  The allowlist entry `["9", "5"]` holds exactly
the candidate group's member identifiers `{"5", "9"}` as a set — the
sorted forms agree — yet detection does not remove the group, because
the group's sorted id list `["5", "9"]` is compared by sequence
equality against the entry as stored. -/
theorem allowlist_set_equality_counterexample :
    pySorted ["9", "5"] = pySorted ["5", "9"] ∧
    (find_duplicates_by_metadata
        [("5", { name := some "Song", artist := some "A", album := some "B",
                 totalTime := some 200, location := some "file:///x/a.mp3" }),
         ("9", { name := some "Song", artist := some "A", album := some "B",
                 totalTime := some 200, location := some "file:///x/b.mp3" })]
        (some { metadataDuplicates := some [["9", "5"]],
                locationDuplicates := some [] })).map
      (fun p => p.2.map (·.trackId)) = [["5", "9"]] := by
  constructor
  · rfl
  · rfl

/-- C4 amended.  With an allowlist partition present, a candidate group
survives detection iff its `sorted()` member-id list differs, as a
sequence, from every entry as stored in that partition: stored entries
that are set-equal but differently ordered do not match. -/
theorem allowlist_filter_is_sequence_match :
    (∀ (tracks : List (String × Track)) (al : Allowlist)
      (allowed : List (List String)), al.metadataDuplicates = some allowed →
      ∀ p, p ∈ find_duplicates_by_metadata tracks (some al) ↔
        (p ∈ metadataDups tracks ∧ pySorted (p.2.map (·.trackId)) ∉ allowed)) ∧
    (∀ (tracks : List (String × Track)) (al : Allowlist)
      (allowed : List (List String)), al.locationDuplicates = some allowed →
      ∀ p, p ∈ find_duplicates_by_location tracks (some al) ↔
        (p ∈ locationDups tracks ∧ pySorted (p.2.map (·.trackId)) ∉ allowed)) := by
  constructor
  · intro tracks al allowed hal p
    simp only [find_duplicates_by_metadata, hal]
    rw [List.mem_filter]
    simp
  · intro tracks al allowed hal p
    simp only [find_duplicates_by_location, hal]
    rw [List.mem_filter]
    simp

/-- C5.  Accepting a detected group's identifiers, in any order,
through `add_to_allowlist` suppresses that group on a re-run over the
unchanged catalog, provided the pre-existing partition entries are
stored sorted (as the mutation protocol itself stores them). -/
theorem accepted_group_suppressed_on_rerun :
    ∀ (tracks : List (String × Track)) (al : Allowlist) (k : MetaKey)
      (g : List MEntry) (ids : List String),
      (∀ e ∈ al.metadataDuplicates.getD [], pySorted e = e) →
      (k, g) ∈ find_duplicates_by_metadata tracks (some al) →
      ids.Perm (g.map (·.trackId)) →
      ∀ p ∈ find_duplicates_by_metadata tracks
          (some (add_to_allowlist al DupType.metadata ids)), p.1 ≠ k := by
  intro tracks al k g ids hsorted hg hperm p hp
  obtain ⟨pk, pg⟩ := p
  intro hpk
  have hpk' : pk = k := hpk
  subst hpk'
  have hp2 : (pk, pg) ∈ (metadataDups tracks).filter
      (fun q => pySorted (q.2.map (·.trackId)) ∉
        addIds (al.metadataDuplicates.getD []) ids) := hp
  obtain ⟨hpdups, hpallow⟩ := List.mem_filter.mp hp2
  have hg1 : (pk, g) ∈ metadataDups tracks := find_meta_subset tracks (some al) _ hg
  have hnd : ((metadataDups tracks).map Prod.fst).Nodup := by
    unfold metadataDups
    exact (metadataGroups_keys_nodup tracks).sublist
      (List.Sublist.map Prod.fst (List.filter_sublist _))
  have hpg : pg = g := assoc_unique _ hnd pk pg g hpdups hg1
  subst hpg
  have hsid : pySorted ids = pySorted (pg.map (·.trackId)) := pySorted_eq_of_perm hperm
  have hin : pySorted ids ∈ addIds (al.metadataDuplicates.getD []) ids := by
    unfold addIds
    split
    · rename_i hex
      rw [List.any_eq_true] at hex
      obtain ⟨e, he, hee⟩ := hex
      have heq : pySorted e = pySorted ids := of_decide_eq_true hee
      rw [← heq, hsorted e he]
      exact he
    · exact List.mem_append_right _ (List.mem_singleton_self _)
  rw [hsid] at hin
  exact of_decide_eq_true hpallow hin

/-- C10.  A missing or non-JSON allowlist file loads as the fresh
two-partition empty structure — `load_allowlist` is total, so the run
continues — and detection with that fresh allowlist filters nothing. -/
theorem fresh_allowlist_on_missing_or_invalid :
    ∀ (st : AllowlistFile), st = .absent ∨ st = .invalidJson →
      load_allowlist st =
        { metadataDuplicates := some [], locationDuplicates := some [] } ∧
      ∀ (tracks : List (String × Track)),
        find_duplicates_by_metadata tracks (some (load_allowlist st)) =
          find_duplicates_by_metadata tracks none ∧
        find_duplicates_by_location tracks (some (load_allowlist st)) =
          find_duplicates_by_location tracks none := by
  intro st hst
  have hl : load_allowlist st =
      { metadataDuplicates := some [], locationDuplicates := some [] } := by
    rcases hst with rfl | rfl <;> rfl
  refine ⟨hl, fun tracks => ⟨?_, ?_⟩⟩
  · rw [hl]
    show (metadataDups tracks).filter
        (fun g => pySorted (g.2.map (·.trackId)) ∉ ([] : List (List String))) =
      metadataDups tracks
    apply List.filter_eq_self.mpr
    intro a _
    simp
  · rw [hl]
    show (locationDups tracks).filter
        (fun g => pySorted (g.2.map (·.trackId)) ∉ ([] : List (List String))) =
      locationDups tracks
    apply List.filter_eq_self.mpr
    intro a _
    simp

/-- C7 counterexample.  A group none of whose tracks resolve in the
library XML evaluates to the empty list, and that empty list IS stored
in the saved evaluation mapping under the group's id (key `0` here): the
group is not omitted from the saved results. -/
theorem empty_group_stored_counterexample :
    evaluate_duplicates (fun _ => false) (fun _ => none)
        [[{ trackId := "1" }]] = .ok [(0, ([] : List Ev))] ∧
      (0, ([] : List Ev)) ∈ [(0, ([] : List Ev))] := by
  exact ⟨rfl, List.mem_singleton_self _⟩

theorem evaluateGroup_of_scored_nil {fs : String → Bool}
    {src : String → Option (List (String × String))} {g : List GTrack}
    (h : scoredOf fs src g = .ok []) : evaluateGroup fs src g = .ok [] := by
  unfold evaluateGroup
  rw [h, exceptBind_ok, if_pos rfl]
  rfl

theorem evalGroupsFrom_mem {fs : String → Bool}
    {src : String → Option (List (String × String))} :
    ∀ (gs : List (List GTrack)) (n i : Nat) (g : List GTrack)
      (out : List (Nat × List Ev)) (r : List Ev),
      gs[i]? = some g → evaluateGroup fs src g = .ok r →
      evalGroupsFrom fs src n gs = .ok out → (n + i, r) ∈ out := by
  intro gs
  induction gs with
  | nil => intro n i g out r hi; simp at hi
  | cons g₀ rest ih =>
    intro n i g out r hi hr hout
    unfold evalGroupsFrom at hout
    cases hev : evaluateGroup fs src g₀ with
    | error m => rw [hev, exceptBind_error] at hout; cases hout
    | ok e₀ =>
      rw [hev, exceptBind_ok] at hout
      cases hrest : evalGroupsFrom fs src (n + 1) rest with
      | error m => rw [hrest, exceptBind_error] at hout; cases hout
      | ok out' =>
        rw [hrest, exceptBind_ok] at hout
        injection hout with hout'
        cases i with
        | zero =>
          simp only [List.getElem?_cons_zero, Option.some.injEq] at hi
          subst hi
          rw [hr] at hev
          injection hev with hev'
          rw [← hout', Nat.add_zero, hev']
          exact List.mem_cons_self _ _
        | succ i' =>
          simp only [List.getElem?_cons_succ] at hi
          have hmem := ih (n + 1) i' g out' r hi hr hrest
          rw [← hout']
          have : n + (i' + 1) = n + 1 + i' := by omega
          rw [this]
          exact List.mem_cons_of_mem _ hmem

/-- C7 amended.  A group that resolves to no tracks produces the empty
Evaluation list without error; it appears in the saved evaluation
mapping as its group id paired with `[]`, and only the HTML report
omits it. -/
theorem empty_group_recorded_not_error :
    ∀ (fs : String → Bool) (src : String → Option (List (String × String)))
      (gs : List (List GTrack)) (i : Nat) (g : List GTrack)
      (out : List (Nat × List Ev)),
      gs[i]? = some g → scoredOf fs src g = .ok [] →
      evaluate_duplicates fs src gs = .ok out →
      (i, ([] : List Ev)) ∈ out ∧ (i, ([] : List Ev)) ∉ htmlReportGroups out := by
  intro fs src gs i g out hi hsc hout
  constructor
  · have := evalGroupsFrom_mem gs 0 i g out [] hi (evaluateGroup_of_scored_nil hsc) hout
    simpa using this
  · intro hmem
    have := List.of_mem_filter hmem
    simp at this

/-- C8 counterexample.  A `Size` value that does not parse as an
integer makes the evaluation raise (`ValueError` from `int()`), rather
than being treated as a missing criterion worth 0. -/
theorem malformed_size_raises_counterexample :
    evaluateGroup (fun _ => false)
        (fun s => if s = "1" then some [("Size", "abc")] else none)
        [{ trackId := "1" }] =
      .error "invalid literal for int() with base 10: abc" := by
  rfl

theorem applyAttr_malformed {key v : String}
    (hk : key = "Size" ∨ key = "Bit Rate" ∨ key = "Sample Rate" ∨
      key = "Play Count" ∨ key = "Rating")
    (hv : pyInt v = none) :
    ∀ c, applyAttr c (key, v) =
      .error ("invalid literal for int() with base 10: " ++ v) := by
  rcases hk with rfl | rfl | rfl | rfl | rfl <;>
    (intro c; simp [applyAttr, hv])

theorem foldlM_malformed {key v : String}
    (hk : key = "Size" ∨ key = "Bit Rate" ∨ key = "Sample Rate" ∨
      key = "Play Count" ∨ key = "Rating")
    (hv : pyInt v = none) :
    ∀ (attrs : List (String × String)) (c₀ : Criteria), (key, v) ∈ attrs →
      ∃ m, attrs.foldlM applyAttr c₀ = .error m := by
  intro attrs
  induction attrs with
  | nil => intro c₀ h; simp at h
  | cons kv rest ih =>
    intro c₀ hmem
    rcases List.mem_cons.mp hmem with heq | hmem'
    · refine ⟨"invalid literal for int() with base 10: " ++ v, ?_⟩
      rw [List.foldlM_cons, ← heq, applyAttr_malformed hk hv c₀, exceptBind_error]
    · cases hap : applyAttr c₀ kv with
      | error m => exact ⟨m, by rw [List.foldlM_cons, hap, exceptBind_error]⟩
      | ok c₁ =>
        obtain ⟨m, hm⟩ := ih c₁ hmem'
        exact ⟨m, by rw [List.foldlM_cons, hap, exceptBind_ok]; exact hm⟩

/-- C8 amended.  Evaluation never silently defaults a malformed numeric
attribute: if any track of the group resolves to attributes containing
a `Size`, `Bit Rate`, `Sample Rate`, `Play Count` or `Rating` value
that `int()` rejects, the whole group evaluation returns an error. -/
theorem malformed_numeric_attribute_raises :
    ∀ (fs : String → Bool) (src : String → Option (List (String × String)))
      (g : List GTrack) (t : GTrack) (attrs : List (String × String))
      (key v : String),
      t ∈ g → src t.trackId = some attrs → (key, v) ∈ attrs →
      (key = "Size" ∨ key = "Bit Rate" ∨ key = "Sample Rate" ∨
        key = "Play Count" ∨ key = "Rating") →
      pyInt v = none →
      ∃ msg, evaluateGroup fs src g = .error msg := by
  intro fs src g t attrs key v htg hsrc hkv hk hv
  have hbuild : ∃ m, buildCriteria fs (t.location.getD "") attrs = .error m := by
    obtain ⟨m, hm⟩ := foldlM_malformed hk hv attrs
      (initCriteria fs (t.location.getD "")) hkv
    exact ⟨m, hm⟩
  have htrack : ∃ m, evalTrack fs src t = .error m := by
    obtain ⟨m, hm⟩ := hbuild
    refine ⟨m, ?_⟩
    simp only [evalTrack, hsrc]
    rw [hm, exceptBind_error]
  have hcoll : ∃ m, collectEvals fs src g = .error m := by
    clear hbuild hsrc hkv
    induction g with
    | nil => simp at htg
    | cons t₀ ts ih =>
      rcases List.mem_cons.mp htg with rfl | htg'
      · obtain ⟨m, hm⟩ := htrack
        exact ⟨m, by unfold collectEvals; rw [hm, exceptBind_error]⟩
      · cases hev : evalTrack fs src t₀ with
        | error m => exact ⟨m, by unfold collectEvals; rw [hev, exceptBind_error]⟩
        | ok o =>
          obtain ⟨m, hm⟩ := ih htg'
          exact ⟨m, by unfold collectEvals; rw [hev, exceptBind_ok, hm, exceptBind_error]⟩
  obtain ⟨m, hm⟩ := hcoll
  refine ⟨m, ?_⟩
  have hsc : scoredOf fs src g = .error m := by
    unfold scoredOf
    rw [hm]
    rfl
  unfold evaluateGroup
  rw [hsc, exceptBind_error]

/-! ## Concrete witnesses -/

/-- C1 witness at a one-track group with bit rate 256 and rating 4 on
an existing `file://` path. -/
theorem evaluated_score_is_claimed_formula_witness :
    (evaluateGroup (fun _ => true)
        (fun s => if s = "1" then some [("Bit Rate", "256"), ("Rating", "4")] else none)
        [{ trackId := "1", name := some "Song", artist := some "Artist",
           location := some "file:///a%20b.mp3" }] =
      .ok [{ trackId := "1", name := "Song", artist := "Artist",
             location := "file:///a%20b.mp3",
             criteria := { fileExists := some true, bitRate := some 256, rating := some 4 },
             score := 1296, recommendation := some .KEEP }]) ∧
    ({ trackId := "1", name := "Song", artist := "Artist",
       location := "file:///a%20b.mp3",
       criteria := { fileExists := some true, bitRate := some 256, rating := some 4 },
       score := 1296, recommendation := some .KEEP } : Ev).score =
      claimScoreFormula (fun _ => true) "file:///a%20b.mp3"
        { fileExists := some true, bitRate := some 256, rating := some 4 } :=
  ⟨by with_unfolding_all rfl,
   evaluated_score_is_claimed_formula (fun _ => true)
     (fun s => if s = "1" then some [("Bit Rate", "256"), ("Rating", "4")] else none)
     [{ trackId := "1", name := some "Song", artist := some "Artist",
        location := some "file:///a%20b.mp3" }]
     _ (by with_unfolding_all rfl) _ (List.mem_singleton_self _)⟩

/-- C2 witness at a two-track group with scores 1128 and 1256. -/
theorem exactly_one_keep_top_ranked_witness :
    (scoredOf (fun _ => true)
        (fun s => if s = "1" then some [("Bit Rate", "128")]
          else if s = "2" then some [("Bit Rate", "256")] else none)
        [{ trackId := "1", location := some "file:///a.mp3" },
         { trackId := "2", location := some "file:///b.mp3" }] =
      .ok [{ trackId := "1", name := "Unknown", artist := "Unknown",
             location := "file:///a.mp3",
             criteria := { fileExists := some true, bitRate := some 128 },
             score := 1128, recommendation := none },
           { trackId := "2", name := "Unknown", artist := "Unknown",
             location := "file:///b.mp3",
             criteria := { fileExists := some true, bitRate := some 256 },
             score := 1256, recommendation := none }]) ∧
    ([{ trackId := "1", name := "Unknown", artist := "Unknown",
        location := "file:///a.mp3",
        criteria := { fileExists := some true, bitRate := some 128 },
        score := 1128, recommendation := none },
      { trackId := "2", name := "Unknown", artist := "Unknown",
        location := "file:///b.mp3",
        criteria := { fileExists := some true, bitRate := some 256 },
        score := 1256, recommendation := none }] ≠ ([] : List Ev)) ∧
    (∃ x xs, sortDescBy Ev.score
        [{ trackId := "1", name := "Unknown", artist := "Unknown",
           location := "file:///a.mp3",
           criteria := { fileExists := some true, bitRate := some 128 },
           score := 1128, recommendation := none },
         { trackId := "2", name := "Unknown", artist := "Unknown",
           location := "file:///b.mp3",
           criteria := { fileExists := some true, bitRate := some 256 },
           score := 1256, recommendation := none }] = x :: xs ∧
      evaluateGroup (fun _ => true)
          (fun s => if s = "1" then some [("Bit Rate", "128")]
            else if s = "2" then some [("Bit Rate", "256")] else none)
          [{ trackId := "1", location := some "file:///a.mp3" },
           { trackId := "2", location := some "file:///b.mp3" }] =
        .ok ({ x with recommendation := some .KEEP } ::
          xs.map (fun y => { y with recommendation := some .REMOVE })) ∧
      IsFirstMaxBy Ev.score x
        [{ trackId := "1", name := "Unknown", artist := "Unknown",
           location := "file:///a.mp3",
           criteria := { fileExists := some true, bitRate := some 128 },
           score := 1128, recommendation := none },
         { trackId := "2", name := "Unknown", artist := "Unknown",
           location := "file:///b.mp3",
           criteria := { fileExists := some true, bitRate := some 256 },
           score := 1256, recommendation := none }] ∧
      (({ x with recommendation := some .KEEP } ::
          xs.map (fun y => { y with recommendation := some .REMOVE })).countP
        (fun e => decide (e.recommendation = some Recommendation.KEEP)) = 1) ∧
      ∀ e ∈ xs.map (fun y => { y with recommendation := some .REMOVE }),
        e.recommendation = some Recommendation.REMOVE) :=
  ⟨by with_unfolding_all rfl, List.cons_ne_nil _ _,
   exactly_one_keep_top_ranked (fun _ => true)
     (fun s => if s = "1" then some [("Bit Rate", "128")]
       else if s = "2" then some [("Bit Rate", "256")] else none)
     [{ trackId := "1", location := some "file:///a.mp3" },
      { trackId := "2", location := some "file:///b.mp3" }]
     _ (by with_unfolding_all rfl) (List.cons_ne_nil _ _)⟩

/-- C3 witness: a catalog of two located tracks sharing one metadata
key. -/
theorem emitted_groups_size_two_and_located_witness :
    ((⟨"Song", "A", "B", 200, ".mp3"⟩,
      [⟨"1", "Song", "A", "B", "file:///x/a.mp3", 0, "", ".mp3"⟩,
       ⟨"2", "Song", "A", "B", "file:///x/a.mp3", 0, "", ".mp3"⟩]) ∈
      find_duplicates_by_metadata
        [("1", ⟨some "Song", some "A", some "B", some 200,
                some "file:///x/a.mp3", none, none⟩),
         ("2", ⟨some "Song", some "A", some "B", some 200,
                some "file:///x/a.mp3", none, none⟩)] none) ∧
    (2 ≤ ([⟨"1", "Song", "A", "B", "file:///x/a.mp3", 0, "", ".mp3"⟩,
           ⟨"2", "Song", "A", "B", "file:///x/a.mp3", 0, "", ".mp3"⟩] :
            List MEntry).length ∧
      ∀ e ∈ ([⟨"1", "Song", "A", "B", "file:///x/a.mp3", 0, "", ".mp3"⟩,
              ⟨"2", "Song", "A", "B", "file:///x/a.mp3", 0, "", ".mp3"⟩] :
               List MEntry),
        ∃ q, q ∈ [("1", (⟨some "Song", some "A", some "B", some 200,
                  some "file:///x/a.mp3", none, none⟩ : Track)),
            ("2", ⟨some "Song", some "A", some "B", some 200,
                  some "file:///x/a.mp3", none, none⟩)] ∧
          q.2.location.isSome ∧ e = mkMEntry q.1 q.2) :=
  ⟨by decide,
   (emitted_groups_size_two_and_located
     [("1", ⟨some "Song", some "A", some "B", some 200,
             some "file:///x/a.mp3", none, none⟩),
      ("2", ⟨some "Song", some "A", some "B", some 200,
             some "file:///x/a.mp3", none, none⟩)] none).1
     ((⟨"Song", "A", "B", 200, ".mp3"⟩,
       [⟨"1", "Song", "A", "B", "file:///x/a.mp3", 0, "", ".mp3"⟩,
        ⟨"2", "Song", "A", "B", "file:///x/a.mp3", 0, "", ".mp3"⟩]) :
       MetaKey × List MEntry) (by decide)⟩

/-- C4 (amended) witness: survival of a candidate group is exactly the
sequence mismatch of its sorted ids against the stored entries. -/
theorem allowlist_filter_is_sequence_match_witness :
    ((⟨some [["9", "5"]], some []⟩ : Allowlist).metadataDuplicates =
      some [["9", "5"]]) ∧
    (((⟨"Song", "A", "B", 200, ".mp3"⟩,
        [⟨"5", "Song", "A", "B", "file:///x/a.mp3", 0, "", ".mp3"⟩,
         ⟨"9", "Song", "A", "B", "file:///x/b.mp3", 0, "", ".mp3"⟩]) :
        MetaKey × List MEntry) ∈
        find_duplicates_by_metadata
          [("5", ⟨some "Song", some "A", some "B", some 200,
                  some "file:///x/a.mp3", none, none⟩),
           ("9", ⟨some "Song", some "A", some "B", some 200,
                  some "file:///x/b.mp3", none, none⟩)]
          (some ⟨some [["9", "5"]], some []⟩) ↔
      (((⟨"Song", "A", "B", 200, ".mp3"⟩,
        [⟨"5", "Song", "A", "B", "file:///x/a.mp3", 0, "", ".mp3"⟩,
         ⟨"9", "Song", "A", "B", "file:///x/b.mp3", 0, "", ".mp3"⟩]) :
        MetaKey × List MEntry) ∈
          metadataDups
            [("5", ⟨some "Song", some "A", some "B", some 200,
                    some "file:///x/a.mp3", none, none⟩),
             ("9", ⟨some "Song", some "A", some "B", some 200,
                    some "file:///x/b.mp3", none, none⟩)] ∧
        pySorted ([⟨"5", "Song", "A", "B", "file:///x/a.mp3", 0, "", ".mp3"⟩,
          (⟨"9", "Song", "A", "B", "file:///x/b.mp3", 0, "", ".mp3"⟩ : MEntry)].map
            (·.trackId)) ∉ [["9", "5"]])) :=
  ⟨rfl,
   allowlist_filter_is_sequence_match.1
     [("5", ⟨some "Song", some "A", some "B", some 200,
             some "file:///x/a.mp3", none, none⟩),
      ("9", ⟨some "Song", some "A", some "B", some 200,
             some "file:///x/b.mp3", none, none⟩)]
     ⟨some [["9", "5"]], some []⟩ [["9", "5"]] rfl _⟩

/-- C5 witness: accepting the group's ids in reversed order suppresses
it on the re-run. -/
theorem accepted_group_suppressed_on_rerun_witness :
    (∀ e ∈ (⟨some [], some []⟩ : Allowlist).metadataDuplicates.getD [],
      pySorted e = e) ∧
    (((⟨"Song", "A", "B", 200, ".mp3"⟩,
        [⟨"5", "Song", "A", "B", "file:///x/a.mp3", 0, "", ".mp3"⟩,
         ⟨"9", "Song", "A", "B", "file:///x/b.mp3", 0, "", ".mp3"⟩]) :
        MetaKey × List MEntry) ∈
      find_duplicates_by_metadata
        [("5", ⟨some "Song", some "A", some "B", some 200,
                some "file:///x/a.mp3", none, none⟩),
         ("9", ⟨some "Song", some "A", some "B", some 200,
                some "file:///x/b.mp3", none, none⟩)]
        (some ⟨some [], some []⟩)) ∧
    (["9", "5"].Perm
      (([⟨"5", "Song", "A", "B", "file:///x/a.mp3", 0, "", ".mp3"⟩,
         (⟨"9", "Song", "A", "B", "file:///x/b.mp3", 0, "", ".mp3"⟩ : MEntry)]).map
        (·.trackId))) ∧
    (∀ p ∈ find_duplicates_by_metadata
        [("5", ⟨some "Song", some "A", some "B", some 200,
                some "file:///x/a.mp3", none, none⟩),
         ("9", ⟨some "Song", some "A", some "B", some 200,
                some "file:///x/b.mp3", none, none⟩)]
        (some (add_to_allowlist ⟨some [], some []⟩ DupType.metadata ["9", "5"])),
      p.1 ≠ (⟨"Song", "A", "B", 200, ".mp3"⟩ : MetaKey)) :=
  ⟨by simp, by decide, List.Perm.swap "5" "9" [],
   accepted_group_suppressed_on_rerun
     [("5", ⟨some "Song", some "A", some "B", some 200,
             some "file:///x/a.mp3", none, none⟩),
      ("9", ⟨some "Song", some "A", some "B", some 200,
             some "file:///x/b.mp3", none, none⟩)]
     ⟨some [], some []⟩ ⟨"Song", "A", "B", 200, ".mp3"⟩
     [⟨"5", "Song", "A", "B", "file:///x/a.mp3", 0, "", ".mp3"⟩,
      ⟨"9", "Song", "A", "B", "file:///x/b.mp3", 0, "", ".mp3"⟩]
     ["9", "5"] (by simp) (by decide) (List.Perm.swap "5" "9" [])⟩

/-- C6 witness: same metadata key, different locations, distinct ids. -/
theorem extension_splits_and_metadata_joins_witness :
    (("5", (⟨some "Song", some "A", some "B", some 200,
        some "file:///x/a.mp3", none, none⟩ : Track)) ∈
      [("5", (⟨some "Song", some "A", some "B", some 200,
              some "file:///x/a.mp3", none, none⟩ : Track)),
       ("9", ⟨some "Song", some "A", some "B", some 200,
              some "file:///x/b.mp3", none, none⟩)]) ∧
    (("9", (⟨some "Song", some "A", some "B", some 200,
        some "file:///x/b.mp3", none, none⟩ : Track)) ∈
      [("5", (⟨some "Song", some "A", some "B", some 200,
              some "file:///x/a.mp3", none, none⟩ : Track)),
       ("9", ⟨some "Song", some "A", some "B", some 200,
              some "file:///x/b.mp3", none, none⟩)]) ∧
    ("5" ≠ "9") ∧
    ((⟨some "Song", some "A", some "B", some 200,
        some "file:///x/a.mp3", none, none⟩ : Track).location.isSome) ∧
    ((⟨some "Song", some "A", some "B", some 200,
        some "file:///x/b.mp3", none, none⟩ : Track).location.isSome) ∧
    (metadataKey ⟨some "Song", some "A", some "B", some 200,
        some "file:///x/a.mp3", none, none⟩ =
      metadataKey ⟨some "Song", some "A", some "B", some 200,
        some "file:///x/b.mp3", none, none⟩) ∧
    ((⟨some "Song", some "A", some "B", some 200,
        some "file:///x/a.mp3", none, none⟩ : Track).location ≠
      (⟨some "Song", some "A", some "B", some 200,
        some "file:///x/b.mp3", none, none⟩ : Track).location) ∧
    (∃ g, (metadataKey (⟨some "Song", some "A", some "B", some 200,
          some "file:///x/a.mp3", none, none⟩ : Track), g) ∈
        find_duplicates_by_metadata
          [("5", ⟨some "Song", some "A", some "B", some 200,
                  some "file:///x/a.mp3", none, none⟩),
           ("9", ⟨some "Song", some "A", some "B", some 200,
                  some "file:///x/b.mp3", none, none⟩)] none ∧
      mkMEntry "5" ⟨some "Song", some "A", some "B", some 200,
        some "file:///x/a.mp3", none, none⟩ ∈ g ∧
      mkMEntry "9" ⟨some "Song", some "A", some "B", some 200,
        some "file:///x/b.mp3", none, none⟩ ∈ g) :=
  ⟨List.mem_cons_self _ _,
   List.mem_cons_of_mem _ (List.mem_singleton_self _),
   by decide, rfl, rfl, rfl, by decide,
   extension_splits_and_metadata_joins.2
     [("5", ⟨some "Song", some "A", some "B", some 200,
             some "file:///x/a.mp3", none, none⟩),
      ("9", ⟨some "Song", some "A", some "B", some 200,
             some "file:///x/b.mp3", none, none⟩)]
     "5" "9" _ _
     (List.mem_cons_self _ _)
     (List.mem_cons_of_mem _ (List.mem_singleton_self _))
     (by decide) rfl rfl rfl (by decide)⟩

/-- C7 (amended) witness: the unresolvable one-track group 0. -/
theorem empty_group_recorded_not_error_witness :
    (([[(⟨"1", none, none, none⟩ : GTrack)]])[0]? =
      some [(⟨"1", none, none, none⟩ : GTrack)]) ∧
    (scoredOf (fun _ => false) (fun _ => none)
      [(⟨"1", none, none, none⟩ : GTrack)] = .ok []) ∧
    (evaluate_duplicates (fun _ => false) (fun _ => none)
      [[(⟨"1", none, none, none⟩ : GTrack)]] = .ok [(0, ([] : List Ev))]) ∧
    ((0, ([] : List Ev)) ∈ [(0, ([] : List Ev))] ∧
      (0, ([] : List Ev)) ∉ htmlReportGroups [(0, ([] : List Ev))]) :=
  ⟨rfl, rfl, rfl,
   empty_group_recorded_not_error (fun _ => false) (fun _ => none)
     [[⟨"1", none, none, none⟩]] 0 [⟨"1", none, none, none⟩]
     [(0, [])] rfl rfl rfl⟩

/-- C8 (amended) witness: a `Size` of `"abc"`. -/
theorem malformed_numeric_attribute_raises_witness :
    ((⟨"1", none, none, none⟩ : GTrack) ∈ [(⟨"1", none, none, none⟩ : GTrack)]) ∧
    ((fun s => if s = "1" then some [("Size", "abc")] else none)
      (⟨"1", none, none, none⟩ : GTrack).trackId = some [("Size", "abc")]) ∧
    (("Size", "abc") ∈ [("Size", "abc")]) ∧
    ("Size" = "Size" ∨ "Size" = "Bit Rate" ∨ "Size" = "Sample Rate" ∨
      "Size" = "Play Count" ∨ "Size" = "Rating") ∧
    (pyInt "abc" = none) ∧
    (∃ msg, evaluateGroup (fun _ => false)
      (fun s => if s = "1" then some [("Size", "abc")] else none)
      [(⟨"1", none, none, none⟩ : GTrack)] = .error msg) :=
  ⟨List.mem_singleton_self _, rfl, List.mem_singleton_self _, Or.inl rfl, rfl,
   malformed_numeric_attribute_raises (fun _ => false)
     (fun s => if s = "1" then some [("Size", "abc")] else none)
     [⟨"1", none, none, none⟩] ⟨"1", none, none, none⟩
     [("Size", "abc")] "Size" "abc"
     (List.mem_singleton_self _) rfl (List.mem_singleton_self _)
     (Or.inl rfl) rfl⟩

/-- C9 witness: bit rate raised from 100 to 200 in a singleton group. -/
theorem criterion_increase_never_lowers_rank_witness :
    (critIncrease
        (⟨"1", "N", "A", "", ⟨none, none, some 100, none, none, none, none⟩,
          100, none⟩ : Ev).criteria
        (⟨"1", "N", "A", "", ⟨none, none, some 200, none, none, none, none⟩,
          200, none⟩ : Ev).criteria = true) ∧
    ((⟨"1", "N", "A", "", ⟨none, none, some 100, none, none, none, none⟩,
        100, none⟩ : Ev).score =
      scoreOf (⟨"1", "N", "A", "", ⟨none, none, some 100, none, none, none, none⟩,
        100, none⟩ : Ev).criteria) ∧
    ((⟨"1", "N", "A", "", ⟨none, none, some 200, none, none, none, none⟩,
        200, none⟩ : Ev).score =
      scoreOf (⟨"1", "N", "A", "", ⟨none, none, some 200, none, none, none, none⟩,
        200, none⟩ : Ev).criteria) ∧
    (rankIn (([] : List Ev).length,
        (⟨"1", "N", "A", "", ⟨none, none, some 200, none, none, none, none⟩,
          200, none⟩ : Ev))
        (sortDescBy (fun p => p.2.score)
          (idxList 0 ([] ++ (⟨"1", "N", "A", "",
            ⟨none, none, some 200, none, none, none, none⟩, 200, none⟩ : Ev) :: [])))
        ≤ rankIn (([] : List Ev).length,
          (⟨"1", "N", "A", "", ⟨none, none, some 100, none, none, none, none⟩,
            100, none⟩ : Ev))
          (sortDescBy (fun p => p.2.score)
            (idxList 0 ([] ++ (⟨"1", "N", "A", "",
              ⟨none, none, some 100, none, none, none, none⟩, 100, none⟩ : Ev) :: [])))
      ∧ (sortDescBy (fun p => p.2.score)
          (idxList 0 ([] ++ (⟨"1", "N", "A", "",
            ⟨none, none, some 200, none, none, none, none⟩, 200, none⟩ : Ev) :: []))).map
            Prod.snd
          = sortDescBy Ev.score ([] ++ (⟨"1", "N", "A", "",
            ⟨none, none, some 200, none, none, none, none⟩, 200, none⟩ : Ev) :: [])) :=
  ⟨by with_unfolding_all rfl, by with_unfolding_all rfl, by with_unfolding_all rfl,
   criterion_increase_never_lowers_rank [] []
     ⟨"1", "N", "A", "", ⟨none, none, some 100, none, none, none, none⟩, 100, none⟩
     ⟨"1", "N", "A", "", ⟨none, none, some 200, none, none, none, none⟩, 200, none⟩
     (by with_unfolding_all rfl) (by with_unfolding_all rfl)
     (by with_unfolding_all rfl)⟩

/-- C10 witness: the absent allowlist file. -/
theorem fresh_allowlist_on_missing_or_invalid_witness :
    (AllowlistFile.absent = AllowlistFile.absent ∨
      AllowlistFile.absent = AllowlistFile.invalidJson) ∧
    (load_allowlist .absent =
      { metadataDuplicates := some [], locationDuplicates := some [] } ∧
    ∀ (tracks : List (String × Track)),
      find_duplicates_by_metadata tracks (some (load_allowlist .absent)) =
        find_duplicates_by_metadata tracks none ∧
      find_duplicates_by_location tracks (some (load_allowlist .absent)) =
        find_duplicates_by_location tracks none) :=
  ⟨Or.inl rfl, fresh_allowlist_on_missing_or_invalid .absent (Or.inl rfl)⟩
